import Mathlib

set_option maxRecDepth 100000

/-!
Verification development for an Ada-identifier-casing normalizer
(`script.py`).  The program is embedded shallowly: text is `List Char`,
Python dicts are insertion-ordered association lists, and each regex used
by the source is embedded as an explicit character-level scanner with the
same leftmost-match and backtracking behaviour (for the identifier-shaped
patterns actually passed to it).
-/

/-- ASCII view of a string literal as a character list. -/
def sL (s : String) : List Char := s.data

/-- ASCII uppercase letter test (`[A-Z]`). -/
def isUpperA (c : Char) : Bool := decide ('A' ≤ c ∧ c ≤ 'Z')

/-- ASCII lowercase letter test (`[a-z]`). -/
def isLowerA (c : Char) : Bool := decide ('a' ≤ c ∧ c ≤ 'z')

/-- ASCII letter test (`[A-Za-z]`), the leading character class of `IDENT_RE`. -/
def isAlphaA (c : Char) : Bool := isUpperA c || isLowerA c

/-- ASCII digit test (`[0-9]`). -/
def isDigitA (c : Char) : Bool := decide ('0' ≤ c ∧ c ≤ '9')

/-- Regex word character (`\w` over ASCII): letters, digits, underscore.
Also the trailing character class of `IDENT_RE`. -/
def isWordC (c : Char) : Bool := isAlphaA c || isDigitA c || c == '_'

/-- Python `\s` over ASCII: space, tab, newline, carriage return,
vertical tab, form feed. -/
def isSpaceC (c : Char) : Bool :=
  c == ' ' || c == '\t' || c == '\n' || c == '\r' || c == '\x0b' || c == '\x0c'

/-- ASCII `str.lower` on one character. -/
def lowerC : Char → Char
  | 'A' => 'a' | 'B' => 'b' | 'C' => 'c' | 'D' => 'd' | 'E' => 'e'
  | 'F' => 'f' | 'G' => 'g' | 'H' => 'h' | 'I' => 'i' | 'J' => 'j'
  | 'K' => 'k' | 'L' => 'l' | 'M' => 'm' | 'N' => 'n' | 'O' => 'o'
  | 'P' => 'p' | 'Q' => 'q' | 'R' => 'r' | 'S' => 's' | 'T' => 't'
  | 'U' => 'u' | 'V' => 'v' | 'W' => 'w' | 'X' => 'x' | 'Y' => 'y'
  | 'Z' => 'z' | c => c

/-- ASCII `str.upper` on one character. -/
def upperC : Char → Char
  | 'a' => 'A' | 'b' => 'B' | 'c' => 'C' | 'd' => 'D' | 'e' => 'E'
  | 'f' => 'F' | 'g' => 'G' | 'h' => 'H' | 'i' => 'I' | 'j' => 'J'
  | 'k' => 'K' | 'l' => 'L' | 'm' => 'M' | 'n' => 'N' | 'o' => 'O'
  | 'p' => 'P' | 'q' => 'Q' | 'r' => 'R' | 's' => 'S' | 't' => 'T'
  | 'u' => 'U' | 'v' => 'V' | 'w' => 'W' | 'x' => 'X' | 'y' => 'Y'
  | 'z' => 'Z' | c => c

/-- `str.lower` on a text. -/
def toLowerL (cs : List Char) : List Char := cs.map lowerC

/-- `str.upper` on a text. -/
def toUpperL (cs : List Char) : List Char := cs.map upperC

/-- Python `str.isupper` over ASCII: at least one letter and
no lowercase letter. -/
def pyIsUpper (cs : List Char) : Bool :=
  cs.any isAlphaA && cs.all (fun c => !isLowerA c)

/-- `str.lstrip()`. -/
def stripLft (cs : List Char) : List Char := cs.dropWhile isSpaceC

/-- `str.rstrip()`. -/
def stripRgt (cs : List Char) : List Char := (cs.reverse.dropWhile isSpaceC).reverse

/-- `str.strip()`. -/
def stripB (cs : List Char) : List Char := stripRgt (stripLft cs)

/-- `str.splitlines()` for newline-terminated text (no line endings kept). -/
def splitLines (cs : List Char) : List (List Char) :=
  cs.foldr
    (fun c acc =>
      if c = '\n' then [] :: acc
      else
        match acc with
        | [] => [[c]]
        | l :: ls => (c :: l) :: ls)
    []

/-- `str.splitlines(True)` for newline-terminated text (line endings kept). -/
def splitLinesKeep (cs : List Char) : List (List Char) :=
  cs.foldr
    (fun c acc =>
      if c = '\n' then [c] :: acc
      else
        match acc with
        | [] => [[c]]
        | l :: ls => (c :: l) :: ls)
    []

/-- `str.split(sep)` for a one-character separator. -/
def splitOnC (sep : Char) (cs : List Char) : List (List Char) :=
  cs.foldr
    (fun c acc =>
      if c = sep then [] :: acc
      else
        match acc with
        | [] => [[c]]
        | l :: ls => (c :: l) :: ls)
    [[]]

/-- `"\n".join(lines)`. -/
def joinNL : List (List Char) → List Char
  | [] => []
  | [l] => l
  | l :: l' :: ls => l ++ '\n' :: joinNL (l' :: ls)

/-- Full-string match of `IDENT_RE` (`re.match(rf"^{IDENT_RE}$", name)`):
a letter followed by word characters. -/
def isIdentFull (cs : List Char) : Bool :=
  match cs with
  | [] => false
  | c :: rest => isAlphaA c && rest.all isWordC

/-- Case-insensitive match of an (already lowercase) pattern `p` as a prefix;
returns the rest of the text after the matched prefix. -/
def ciPrefixRest : List Char → List Char → Option (List Char)
  | [], cs => some cs
  | _ :: _, [] => none
  | p :: ps, c :: cs => if lowerC c = p then ciPrefixRest ps cs else none

/-- Whole-word match of (lowercase, word-character) pattern `w` at the start
of the text: `w` is a case-insensitive prefix and the next character (if any)
is not a word character.  This is `\bw\b` at a position whose left boundary
the caller has already checked. -/
def wordAt (w cs : List Char) : Bool :=
  match ciPrefixRest w cs with
  | some [] => true
  | some (c :: _) => !isWordC c
  | none => false

/-- Match `lit` case-insensitively followed by `\s+` (one or more whitespace,
consumed maximally); returns the text after the whitespace. -/
def eatLitWs (lit cs : List Char) : Option (List Char) :=
  match ciPrefixRest lit cs with
  | some (c :: rest) =>
      if isSpaceC c then some (List.dropWhile isSpaceC (c :: rest)) else none
  | some [] => none
  | none => none

/-- Match `({IDENT_RE})` greedily at the start of the text: a letter then the
maximal run of word characters.  Returns (captured identifier, rest). -/
def eatIdent : List Char → Option (List Char × List Char)
  | [] => none
  | c :: cs =>
      if isAlphaA c then some (c :: cs.takeWhile isWordC, cs.dropWhile isWordC)
      else none

/-- `strip_comment`: truncate at the first `--`. -/
def strip_comment : List Char → List Char
  | [] => []
  | c :: cs =>
      if c = '-' ∧ cs.head? = some '-' then [] else c :: strip_comment cs

/-- `is_package_unit` body: scan stripped lowered lines in order. -/
def isPackageUnitGo : List (List Char) → Bool
  | [] => false
  | l :: ls =>
      let code := toLowerL (stripB (strip_comment l))
      if code.isEmpty then isPackageUnitGo ls
      else if (sL "with ").isPrefixOf code || (sL "use ").isPrefixOf code then
        isPackageUnitGo ls
      else if (sL "package ").isPrefixOf code then true
      else if (sL "procedure ").isPrefixOf code || (sL "function ").isPrefixOf code then
        false
      else isPackageUnitGo ls

/-- `is_package_unit`. -/
def is_package_unit (text : List Char) : Bool :=
  isPackageUnitGo (splitLines text)

/-- Body of `re.search(rf":\s*(?:constant\s+)?(?:in\s+out\s+|in\s+|out\s+)?({IDENT_RE})", ...)`
after a `:` has been consumed: `\s*` (maximal), then the optional groups with
the regex's backtracking order, then the captured identifier. -/
def colonModes (ds : List Char) : Option (List Char) :=
  (do
    let r1 ← eatLitWs (sL "in") ds
    let r2 ← eatLitWs (sL "out") r1
    (eatIdent r2).map Prod.fst) <|>
  (do
    let r1 ← eatLitWs (sL "in") ds
    (eatIdent r1).map Prod.fst) <|>
  (do
    let r1 ← eatLitWs (sL "out") ds
    (eatIdent r1).map Prod.fst) <|>
  (eatIdent ds).map Prod.fst

def afterColonType (cs0 : List Char) : Option (List Char) :=
  match eatLitWs (sL "constant") (cs0.dropWhile isSpaceC) with
  | some r =>
      match colonModes r with
      | some id => some id
      | none => colonModes (cs0.dropWhile isSpaceC)
  | none => colonModes (cs0.dropWhile isSpaceC)

/-- Leftmost match of the colon-type regex: try each `:` in order. -/
def searchColonType : List Char → Option (List Char)
  | [] => none
  | c :: cs =>
      if c = ':' then
        match afterColonType cs with
        | some id => some id
        | none => searchColonType cs
      else searchColonType cs

/-- Attempt `\bkw\s+({IDENT_RE})` at the current position (left word boundary
already checked by the caller). -/
def kwIdentHere (kw cs : List Char) : Option (List Char) :=
  match ciPrefixRest kw cs with
  | some (d :: rest) =>
      if isSpaceC d then (eatIdent (List.dropWhile isSpaceC (d :: rest))).map Prod.fst
      else none
  | _ => none

/-- Leftmost match of `\bkw\s+({IDENT_RE})` (used for `\bof\s+...` and
`\breturn\s+...`).  `prevW` tracks whether the previous character is a word
character (for the `\b`). -/
def searchKwIdent (kw : List Char) : Bool → List Char → Option (List Char)
  | _, [] => none
  | prevW, c :: cs =>
      match (if prevW then none else kwIdentHere kw (c :: cs)) with
      | some id => some id
      | none => searchKwIdent kw (isWordC c) cs

/-- Whole-word containment `re.search(rf"\bw\b", ..., IGNORECASE)` for a
word-character pattern `w`. -/
def containsWordCI (w : List Char) : Bool → List Char → Bool
  | _, [] => false
  | prevW, c :: cs =>
      (!prevW && wordAt w (c :: cs)) || containsWordCI w (isWordC c) cs

/-- Python dict embedded as an insertion-ordered association list. -/
abbrev Dict := List (List Char × List Char)

/-- Dict lookup (`d[k]` / `k in d`). -/
def dlookup (k : List Char) : Dict → Option (List Char)
  | [] => none
  | (k', v) :: m => if k' = k then some v else dlookup k m

/-- Dict assignment `d[k] = v`: replace the binding in place if the key is
present, else append the new binding at the end (Python dicts preserve
insertion order). -/
def dset : Dict → List Char → List Char → Dict
  | [], k, v => [(k, v)]
  | p :: m, k, v => if p.1 = k then (k, v) :: m else p :: dset m k v

/-- `d.update(other)`: fold `other`'s entries into `d` in order. -/
def dupdate (m other : Dict) : Dict :=
  other.foldl (fun acc p => dset acc p.1 p.2) m

/-- `collect_type_names`. -/
def collect_type_names (line : List Char) : Dict :=
  let code := strip_comment line
  let m1 : Dict :=
    match searchColonType code with
    | some t => dset [] (toLowerL t) (toUpperL t)
    | none => []
  let m2 : Dict :=
    if containsWordCI (sL "array") false code then
      match searchKwIdent (sL "of") false code with
      | some t => dset m1 (toLowerL t) (toUpperL t)
      | none => m1
    else m1
  match searchKwIdent (sL "return") false code with
  | some t => dset m2 (toLowerL t) (toUpperL t)
  | none => m2

/-- `re.match(rf"^\s*(type|subtype)\s+({IDENT_RE})\b", code, IGNORECASE)`,
returning the captured declared name. -/
def matchTypeDecl (code : List Char) : Option (List Char) :=
  let cs := code.dropWhile isSpaceC
  match eatLitWs (sL "type") cs with
  | some r => (eatIdent r).map Prod.fst
  | none =>
      match eatLitWs (sL "subtype") cs with
      | some r => (eatIdent r).map Prod.fst
      | none => none

/-- The character class `[A-Za-z0-9_,\s]` of the object-declaration pattern. -/
def isObjClassC (c : Char) : Bool :=
  isAlphaA c || isDigitA c || c == '_' || c == ',' || isSpaceC c

/-- `re.match(r"^\s*([A-Za-z0-9_,\s]+):(.*)$", code)`: the maximal leading
run of class characters must be nonempty and be followed by `:`; returns
(group 1 including any leading whitespace, group 2). -/
def matchObjDecl (code : List Char) : Option (List Char × List Char) :=
  match code.dropWhile isObjClassC with
  | c :: rest =>
      if c = ':' then
        if (code.takeWhile isObjClassC).isEmpty then none
        else some (code.takeWhile isObjClassC, rest)
      else none
  | [] => none

/-- Casing assigned to one identifier of an object-declaration list:
uppercase for constants, else the policy default. -/
def objDeclValue (isConst make_var_upper : Bool) (name : List Char) : List Char :=
  if isConst then toUpperL name
  else if make_var_upper then toUpperL name
  else toLowerL name

/-- The per-identifier loop over an object declaration's comma-separated
list: trim, validate as a bare identifier, assign the casing. -/
def objIdsFold (isConst make_var_upper : Bool) (ids : Dict)
    (parts : List (List Char)) : Dict :=
  parts.foldl
    (fun acc idr =>
      if (stripB idr).isEmpty then acc
      else if !isIdentFull (stripB idr) then acc
      else
        dset acc (toLowerL (stripB idr))
          (objDeclValue isConst make_var_upper (stripB idr)))
    ids

/-- One line of the `collect_declarations` scan. -/
def declStep (make_var_upper : Bool) (st : Dict × Dict) (raw : List Char) :
    Dict × Dict :=
  if (stripB (stripRgt (strip_comment raw))).isEmpty then st
  else
    match matchTypeDecl (stripRgt (strip_comment raw)) with
    | some name =>
        (dset st.1 (toLowerL name) (toUpperL name),
         dupdate st.2 (collect_type_names (stripRgt (strip_comment raw))))
    | none =>
        match matchObjDecl (stripRgt (strip_comment raw)) with
        | some (idPart, rest) =>
            (objIdsFold (containsWordCI (sL "constant") false rest)
               make_var_upper st.1 (splitOnC ',' idPart),
             dupdate st.2 (collect_type_names (stripRgt (strip_comment raw))))
        | none => st

/-- `collect_declarations`. -/
def collect_declarations (lines : List (List Char)) (make_var_upper : Bool) :
    Dict × Dict :=
  lines.foldl (declStep make_var_upper) ([], [])

/-- `collect_package_mapping`. -/
def collect_package_mapping (text : List Char) : Dict :=
  let idty := collect_declarations (splitLines text) true
  dupdate (dupdate [] idty.1) idty.2

/-- Leftmost `\b(procedure|function)\b` in one comment-stripped line,
with its character index. -/
def searchPF : Bool → Nat → List Char → Option (List Char × Nat)
  | _, _, [] => none
  | prevW, i, c :: cs =>
      if !prevW && wordAt (sL "procedure") (c :: cs) then some (sL "procedure", i)
      else if !prevW && wordAt (sL "function") (c :: cs) then some (sL "function", i)
      else searchPF (isWordC c) (i + 1) cs

/-- Line loop of `find_first_subprogram`, tracking the character offset of
each kept-endings line in the original text. -/
def ffsGo : List (List Char) → Nat → Option (List Char × Nat)
  | [], _ => none
  | l :: ls, off =>
      match searchPF false 0 (strip_comment l) with
      | some (kw, i) => some (kw, off + i)
      | none => ffsGo ls (off + l.length)

/-- `find_first_subprogram`. -/
def find_first_subprogram (text : List Char) : Option (List Char × Nat) :=
  ffsGo (splitLinesKeep text) 0

/-- Leftmost `\bkw\b` with its index, scanning with a left-boundary flag. -/
def searchWord (kw : List Char) : Bool → Nat → List Char → Option Nat
  | _, _, [] => none
  | prevW, i, c :: cs =>
      if !prevW && wordAt kw (c :: cs) then some i
      else searchWord kw (isWordC c) (i + 1) cs

/-- `find_keyword_after`: search the raw text from `start`. -/
def find_keyword_after (text kw : List Char) (start : Nat) : Option Nat :=
  (searchWord kw false 0 (text.drop start)).map (start + ·)

/-- `re.search(r"\((.*)\)", header, DOTALL)`: from the first `(` to the last
`)` after it (greedy dot). -/
def parenContent (header : List Char) : Option (List Char) :=
  match header.dropWhile (fun c => c != '(') with
  | [] => none
  | _ :: after =>
      match after.reverse.dropWhile (fun c => c != ')') with
      | [] => none
      | _ :: revContent => some revContent.reverse

/-- The per-identifier loop over a parameter group's names before the
colon: trim, validate, force lowercase. -/
def paramIdsFold (m : Dict) (parts : List (List Char)) : Dict :=
  parts.foldl
    (fun acc idr =>
      if (stripB idr).isEmpty then acc
      else if !isIdentFull (stripB idr) then acc
      else dset acc (toLowerL (stripB idr)) (toLowerL (stripB idr)))
    m

/-- One semicolon-separated parameter group of the subprogram header. -/
def paramStep (m : Dict) (group : List Char) : Dict :=
  match matchObjDecl (strip_comment group) with
  | some (idPart, _) =>
      dupdate (paramIdsFold m (splitOnC ',' idPart))
        (collect_type_names (strip_comment group))
  | none => dupdate m (collect_type_names (strip_comment group))

/-- Attempt `\bfor\s+({IDENT_RE})\s+in\b` at the current position; returns the
captured identifier and the rest of the text after `in`. -/
def matchForIn (cs : List Char) : Option (List Char × List Char) :=
  match eatLitWs (sL "for") cs with
  | none => none
  | some r1 =>
      match eatIdent r1 with
      | none => none
      | some (v, r2) =>
          match r2 with
          | [] => none
          | c :: r2' =>
              if isSpaceC c then
                match ciPrefixRest (sL "in") (List.dropWhile isSpaceC (c :: r2')) with
                | some [] => some (v, [])
                | some (d :: rest) =>
                    if isWordC d then none else some (v, d :: rest)
                | none => none
              else none

/-- `re.finditer(rf"\bfor\s+({IDENT_RE})\s+in\b", ...)`: all captured loop
variables in order.  `fuel` bounds the scan (each step consumes at least one
character, so `cs.length` fuel is enough). -/
def findLoopVarsF : Nat → Bool → List Char → List (List Char)
  | 0, _, _ => []
  | _ + 1, _, [] => []
  | fuel + 1, prevW, c :: cs =>
      if prevW then findLoopVarsF fuel (isWordC c) cs
      else
        match matchForIn (c :: cs) with
        | some (v, rest) => v :: findLoopVarsF fuel true rest
        | none => findLoopVarsF fuel (isWordC c) cs

/-- All loop variables captured in a text. -/
def findLoopVars (cs : List Char) : List (List Char) :=
  findLoopVarsF cs.length false cs

/-- `re.compile(rf"^\s*({IDENT_RE})\s*:=", IGNORECASE).match(code)`: the
assignment-target identifier of a line, if any. -/
def assignTarget (code : List Char) : Option (List Char) :=
  match eatIdent (code.dropWhile isSpaceC) with
  | some (name, rest) =>
      match rest.dropWhile isSpaceC with
      | c1 :: c2 :: _ => if c1 = ':' ∧ c2 = '=' then some name else none
      | _ => none
  | none => none

/-- The comment-stripped whole text used by the loop-variable scan:
`"\n".join(strip_comment(l) for l in text.splitlines())`. -/
def ncText (text : List Char) : List Char :=
  joinNL ((splitLines text).map strip_comment)

/-- Stage 1 of the subprogram mapping: pre-subprogram globals
(uppercase policy), identifier map then type-name map. -/
def stageGlobals (text : List Char) (ps : Nat) : Dict :=
  let gt := collect_declarations (splitLines (text.take ps)) true
  dupdate (dupdate [] gt.1) gt.2

/-- The header slice `text[proc_start:is_pos]`. -/
def headerOf (text : List Char) (ps ip : Nat) : List Char :=
  (text.take ip).drop ps

/-- The declarative-region lines `text[is_pos:begin_pos].splitlines()`. -/
def declLinesOf (text : List Char) (ip bp : Nat) : List (List Char) :=
  splitLines ((text.take bp).drop ip)

/-- Stage 2: parameters of the parenthesized list, if present. -/
def stageParams (m : Dict) (header : List Char) : Dict :=
  match parenContent header with
  | some params => (splitOnC ';' params).foldl paramStep m
  | none => m

/-- Stage 3: function return type. -/
def stageReturn (m : Dict) (header : List Char) : Dict :=
  match searchKwIdent (sL "return") false header with
  | some rt => dset m (toLowerL rt) (toUpperL rt)
  | none => m

/-- Stage 4: local declarations between `is` and `begin`
(lowercase policy), identifier map then type-name map. -/
def stageLocals (m : Dict) (dls : List (List Char)) : Dict :=
  let lt := collect_declarations dls false
  dupdate (dupdate m lt.1) lt.2

/-- One loop-variable update: force lowercase iff absent or all-uppercase. -/
def loopStep (m : Dict) (v : List Char) : Dict :=
  match dlookup (toLowerL v) m with
  | none => dset m (toLowerL v) (toLowerL v)
  | some w => if pyIsUpper w then dset m (toLowerL v) (toLowerL v) else m

/-- Stage 5: loop variables over the comment-stripped whole text. -/
def stageLoops (m : Dict) (nct : List Char) : Dict :=
  (findLoopVars nct).foldl loopStep m

/-- One external-global update: uppercase an assignment target not yet mapped. -/
def extStep (m : Dict) (raw : List Char) : Dict :=
  match assignTarget (strip_comment raw) with
  | some name =>
      if (dlookup (toLowerL name) m).isNone then
        dset m (toLowerL name) (toUpperL name)
      else m
  | none => m

/-- Stage 6: external globals over all raw lines. -/
def stageExternal (m : Dict) (text : List Char) : Dict :=
  (splitLines text).foldl extStep m

/-- Stage 4's input map: globals, then parameters, then return type. -/
def mapThroughReturn (text : List Char) (ps ip : Nat) : Dict :=
  stageReturn (stageParams (stageGlobals text ps) (headerOf text ps ip))
    (headerOf text ps ip)

/-- The mapping accumulated through the locals stage. -/
def mapThroughLocals (text : List Char) (ps ip bp : Nat) : Dict :=
  stageLocals (mapThroughReturn text ps ip) (declLinesOf text ip bp)

/-- The mapping accumulated through the loop-variable stage. -/
def mapThroughLoops (text : List Char) (ps ip bp : Nat) : Dict :=
  stageLoops (mapThroughLocals text ps ip bp) (ncText text)

/-- `collect_subprogram_mapping`. -/
def collect_subprogram_mapping (text : List Char) : Dict :=
  match find_first_subprogram text with
  | none => collect_package_mapping text
  | some (_, ps) =>
      match find_keyword_after text (sL "is") ps with
      | none => stageGlobals text ps
      | some ip =>
          match find_keyword_after text (sL "begin") ip with
          | none => stageGlobals text ps
          | some bp => stageExternal (mapThroughLoops text ps ip bp) text

/-- Split a text into the maximal runs of word / non-word characters.
`re.sub(rf"\b{key}\b", val, text, IGNORECASE)` for an identifier `key`
rewrites exactly the word runs case-insensitively equal to `key`. -/
def splitRuns (cs : List Char) : List (List Char) :=
  cs.foldr
    (fun c acc =>
      match acc with
      | [] => [[c]]
      | r :: rs =>
          match r with
          | [] => [c] :: rs
          | d :: _ =>
              if isWordC c = isWordC d then (c :: r) :: rs else [c] :: r :: rs)
    []

/-- Replacement of one token under `\bkey\b` (IGNORECASE), `key` lowercase. -/
def repTok (key val tok : List Char) : List Char :=
  if toLowerL tok = key then val else tok

/-- `pattern.sub(new_name, result)` for `pattern = \b{canon}\b` (IGNORECASE),
embedded via the maximal-run decomposition. -/
def replaceWord (key val cs : List Char) : List Char :=
  ((splitRuns cs).map (repTok key val)).flatten

/-- Stable insertion into a length-descending list (Python `sorted` with key
`-len`, which is stable: equal lengths keep insertion order). -/
def insertDesc (p : List Char × List Char) : Dict → Dict
  | [] => [p]
  | q :: qs =>
      if q.1.length ≤ p.1.length then p :: q :: qs else q :: insertDesc p qs

/-- `sorted(mapping.items(), key=lambda kv: -len(kv[0]))`. -/
def sortDescLen : Dict → Dict
  | [] => []
  | p :: ps => insertDesc p (sortDescLen ps)

/-- `apply_mapping`. -/
def apply_mapping (text : List Char) (m : Dict) : List Char :=
  if m.isEmpty then text
  else (sortDescLen m).foldl (fun acc p => replaceWord p.1 p.2 acc) text

/-- The per-file core of `process_file`: classify, build the mapping,
rewrite. -/
def normalizeFile (text : List Char) : List Char :=
  apply_mapping text
    (if is_package_unit text then collect_package_mapping text
     else collect_subprogram_mapping text)

/-! ### Character case algebra -/

theorem lowerC_upperC (c : Char) : lowerC (upperC c) = lowerC c := by
  unfold upperC
  split <;> rfl

theorem upperC_lowerC (c : Char) : upperC (lowerC c) = upperC c := by
  unfold lowerC
  split <;> rfl

theorem lowerC_idem (c : Char) : lowerC (lowerC c) = lowerC c := by
  calc lowerC (lowerC c) = lowerC (upperC (lowerC c)) := (lowerC_upperC (lowerC c)).symm
    _ = lowerC (upperC c) := by rw [upperC_lowerC]
    _ = lowerC c := lowerC_upperC c

theorem upperC_idem (c : Char) : upperC (upperC c) = upperC c := by
  calc upperC (upperC c) = upperC (lowerC (upperC c)) := (upperC_lowerC (upperC c)).symm
    _ = upperC (lowerC c) := by rw [lowerC_upperC]
    _ = upperC c := upperC_lowerC c

theorem isWordC_lowerC (c : Char) : isWordC (lowerC c) = isWordC c := by
  unfold lowerC
  split <;> rfl

theorem isWordC_upperC (c : Char) : isWordC (upperC c) = isWordC c := by
  unfold upperC
  split <;> rfl

theorem isSpaceC_lowerC (c : Char) : isSpaceC (lowerC c) = isSpaceC c := by
  unfold lowerC
  split <;> rfl

theorem isAlphaA_lowerC (c : Char) : isAlphaA (lowerC c) = isAlphaA c := by
  unfold lowerC
  split <;> rfl

theorem isObjClassC_lowerC (c : Char) : isObjClassC (lowerC c) = isObjClassC c := by
  unfold lowerC
  split <;> rfl

theorem lowerC_of_not_upperA (c : Char) (h : isUpperA c = false) : lowerC c = c := by
  unfold lowerC
  split <;> first | rfl | (exact absurd h (by decide))

theorem isLowerA_lowerC_of_isAlphaA (c : Char) (h : isAlphaA c = true) :
    isLowerA (lowerC c) = true := by
  rcases Bool.eq_false_or_eq_true (isUpperA c) with hu | hu
  · have hb : 65 ≤ c.toNat ∧ c.toNat ≤ 90 := by
      simp [isUpperA, decide_eq_true_eq] at hu
      exact hu
    obtain ⟨h1, h2⟩ := hb
    have hofn : Char.ofNat c.toNat = c := Char.ofNat_toNat c
    interval_cases hn : c.toNat <;> rw [← hofn] <;> decide
  · have hl : isLowerA c = true := by
      rw [isAlphaA, hu, Bool.false_or] at h
      exact h
    have hc : lowerC c = c := by
      apply lowerC_of_not_upperA
      exact hu
    rw [hc]; exact hl

theorem lowerC_eq_nonletter_iff (a ch : Char) (h : isAlphaA ch = false) :
    lowerC a = ch ↔ a = ch := by
  constructor
  · intro he
    revert he
    unfold lowerC
    split <;> intro he <;> first
      | exact he
      | (exact absurd h (by rw [← he]; decide))
  · intro he
    subst he
    apply lowerC_of_not_upperA
    rcases Bool.eq_false_or_eq_true (isUpperA a) with hu | hu
    · rw [isAlphaA, hu, Bool.true_or] at h
      exact absurd h (by decide)
    · exact hu

/-! ### List-level case algebra -/

theorem toLowerL_idem (s : List Char) : toLowerL (toLowerL s) = toLowerL s := by
  induction s with
  | nil => rfl
  | cons c cs ih =>
      simp only [toLowerL, List.map_cons, lowerC_idem, List.cons.injEq, true_and]
      exact ih

theorem toLowerL_toUpperL (s : List Char) : toLowerL (toUpperL s) = toLowerL s := by
  induction s with
  | nil => rfl
  | cons c cs ih =>
      simp only [toLowerL, toUpperL, List.map_cons, lowerC_upperC, List.cons.injEq, true_and]
      exact ih

theorem toUpperL_toLowerL (s : List Char) : toUpperL (toLowerL s) = toUpperL s := by
  induction s with
  | nil => rfl
  | cons c cs ih =>
      simp only [toLowerL, toUpperL, List.map_cons, upperC_lowerC, List.cons.injEq, true_and]
      exact ih

theorem toLowerL_length (s : List Char) : (toLowerL s).length = s.length := by
  simp [toLowerL]

theorem toUpperL_length (s : List Char) : (toUpperL s).length = s.length := by
  simp [toUpperL]

theorem toLowerL_append (s t : List Char) :
    toLowerL (s ++ t) = toLowerL s ++ toLowerL t := by
  simp [toLowerL]

/-- Identifier-shaped word: nonempty, all word characters. -/
def WordShaped (cs : List Char) : Prop :=
  cs ≠ [] ∧ cs.all isWordC = true

theorem wordShaped_toLowerL {cs : List Char} (h : WordShaped cs) :
    WordShaped (toLowerL cs) := by
  obtain ⟨h1, h2⟩ := h
  constructor
  · simp [toLowerL]; exact h1
  · simp only [toLowerL, List.all_eq_true] at h2 ⊢
    intro c hc
    obtain ⟨d, hd, hdc⟩ := List.mem_map.mp hc
    rw [← hdc, isWordC_lowerC]
    exact h2 d hd

theorem wordShaped_toUpperL {cs : List Char} (h : WordShaped cs) :
    WordShaped (toUpperL cs) := by
  obtain ⟨h1, h2⟩ := h
  constructor
  · simp [toUpperL]; exact h1
  · simp only [List.all_eq_true] at h2 ⊢
    intro c hc
    obtain ⟨d, hd, hdc⟩ := List.mem_map.mp hc
    rw [← hdc, isWordC_upperC]
    exact h2 d hd

/-- Python `.isupper()` is false on the lowercase form of anything that
starts with a letter. -/
theorem pyIsUpper_toLowerL_false (c : Char) (cs : List Char)
    (h : isAlphaA c = true) : pyIsUpper (toLowerL (c :: cs)) = false := by
  apply Bool.and_eq_false_iff.mpr
  right
  simp only [toLowerL, List.map_cons, List.all_cons, Bool.and_eq_false_iff]
  left
  rw [isLowerA_lowerC_of_isAlphaA c h]
  rfl

/-! ### Dict lemmas -/

/-- The keys of a dict are pairwise distinct (true of every dict the
program builds, since they are built by `dset` from `[]`). -/
def NoDupKeys (m : Dict) : Prop := (m.map Prod.fst).Nodup

theorem dlookup_eq_none_iff (k : List Char) (m : Dict) :
    dlookup k m = none ↔ k ∉ m.map Prod.fst := by
  induction m with
  | nil => simp [dlookup]
  | cons p m ih =>
      obtain ⟨a, b⟩ := p
      by_cases h : a = k
      · subst h
        simp [dlookup]
      · simp only [dlookup, if_neg h, List.map_cons, List.mem_cons, ih]
        constructor
        · intro hn
          rintro (he | he)
          · exact h he.symm
          · exact hn he
        · intro hn he
          exact hn (Or.inr he)

theorem dlookup_isSome_iff (k : List Char) (m : Dict) :
    (dlookup k m).isSome = true ↔ k ∈ m.map Prod.fst := by
  rw [← Decidable.not_iff_not, ← dlookup_eq_none_iff k m]
  cases dlookup k m <;> simp

theorem dlookup_dset_self (m : Dict) (k v : List Char) :
    dlookup k (dset m k v) = some v := by
  induction m with
  | nil => simp [dset, dlookup]
  | cons p m ih =>
      obtain ⟨a, b⟩ := p
      show dlookup k (if a = k then (k, v) :: m else (a, b) :: dset m k v) = some v
      by_cases h : a = k
      · rw [if_pos h]
        simp [dlookup]
      · rw [if_neg h]
        show (if a = k then some b else dlookup k (dset m k v)) = some v
        rw [if_neg h]
        exact ih

theorem dlookup_dset_other (m : Dict) (k k' v : List Char) (h : k' ≠ k) :
    dlookup k' (dset m k v) = dlookup k' m := by
  induction m with
  | nil =>
      show dlookup k' [(k, v)] = dlookup k' []
      show (if k = k' then some v else dlookup k' []) = dlookup k' []
      rw [if_neg (fun he : k = k' => h he.symm)]
  | cons p m ih =>
      obtain ⟨a, b⟩ := p
      show dlookup k' (if a = k then (k, v) :: m else (a, b) :: dset m k v) =
        dlookup k' ((a, b) :: m)
      by_cases hk : a = k
      · rw [if_pos hk]
        have hak' : ¬ a = k' := fun he => h (he.symm.trans hk)
        show (if k = k' then some v else dlookup k' m) =
          (if a = k' then some b else dlookup k' m)
        rw [if_neg (fun he : k = k' => h he.symm), if_neg hak']
      · rw [if_neg hk]
        show (if a = k' then some b else dlookup k' (dset m k v)) =
          (if a = k' then some b else dlookup k' m)
        by_cases ha : a = k'
        · rw [if_pos ha, if_pos ha]
        · rw [if_neg ha, if_neg ha]
          exact ih

theorem mem_dset (m : Dict) (k v : List Char) (p : List Char × List Char)
    (h : p ∈ dset m k v) : p ∈ m ∨ p = (k, v) := by
  induction m with
  | nil =>
      simp [dset] at h
      right; exact h
  | cons q m ih =>
      obtain ⟨a, b⟩ := q
      have hd : dset ((a, b) :: m) k v =
          (if a = k then (k, v) :: m else (a, b) :: dset m k v) := rfl
      rw [hd] at h
      by_cases hk : a = k
      · rw [if_pos hk] at h
        rcases List.mem_cons.mp h with h2 | h2
        · right; exact h2
        · left; exact List.mem_cons_of_mem (a, b) h2
      · rw [if_neg hk] at h
        rcases List.mem_cons.mp h with h2 | h2
        · left
          rw [h2]
          exact List.mem_cons_self (a, b) m
        · rcases ih h2 with h3 | h3
          · left; exact List.mem_cons_of_mem (a, b) h3
          · right; exact h3

theorem keys_dset_of_mem (m : Dict) (k v : List Char)
    (h : k ∈ m.map Prod.fst) :
    (dset m k v).map Prod.fst = m.map Prod.fst := by
  induction m with
  | nil => simp at h
  | cons q m ih =>
      obtain ⟨a, b⟩ := q
      have hd : dset ((a, b) :: m) k v =
          (if a = k then (k, v) :: m else (a, b) :: dset m k v) := rfl
      rw [hd]
      by_cases hk : a = k
      · rw [if_pos hk, hk]
        simp
      · rw [if_neg hk]
        simp only [List.map_cons, List.mem_cons] at h
        rcases h with h | h
        · exact absurd h.symm hk
        · simp [ih h]

theorem keys_dset_of_not_mem (m : Dict) (k v : List Char)
    (h : k ∉ m.map Prod.fst) :
    (dset m k v).map Prod.fst = m.map Prod.fst ++ [k] := by
  induction m with
  | nil => simp [dset]
  | cons q m ih =>
      obtain ⟨a, b⟩ := q
      simp only [List.map_cons, List.mem_cons] at h
      push_neg at h
      obtain ⟨h1, h2⟩ := h
      have hd : dset ((a, b) :: m) k v =
          (if a = k then (k, v) :: m else (a, b) :: dset m k v) := rfl
      rw [hd, if_neg (fun he : a = k => h1 he.symm)]
      simp [ih h2]

theorem ndk_dset (m : Dict) (k v : List Char) (h : NoDupKeys m) :
    NoDupKeys (dset m k v) := by
  by_cases hm : k ∈ m.map Prod.fst
  · unfold NoDupKeys
    rw [keys_dset_of_mem m k v hm]
    exact h
  · unfold NoDupKeys
    rw [keys_dset_of_not_mem m k v hm]
    simp only [List.nodup_append, List.nodup_cons, List.not_mem_nil, not_false_iff,
      List.nodup_nil, and_true, true_and]
    refine ⟨h, ?_⟩
    intro a ha
    simp only [List.mem_singleton]
    intro he
    exact hm (he ▸ ha)

theorem ndk_dupdate (m other : Dict) (h : NoDupKeys m) :
    NoDupKeys (dupdate m other) := by
  induction other generalizing m with
  | nil => exact h
  | cons p ps ih => exact ih (dset m p.1 p.2) (ndk_dset m p.1 p.2 h)

theorem dlookup_dupdate_not_mem (other m : Dict) (k : List Char)
    (h : k ∉ other.map Prod.fst) :
    dlookup k (dupdate m other) = dlookup k m := by
  induction other generalizing m with
  | nil => rfl
  | cons p ps ih =>
      simp only [List.map_cons, List.mem_cons] at h
      push_neg at h
      obtain ⟨h1, h2⟩ := h
      show dlookup k (dupdate (dset m p.1 p.2) ps) = dlookup k m
      rw [ih (dset m p.1 p.2) h2]
      exact dlookup_dset_other m p.1 k p.2 h1

theorem dlookup_dupdate_of_mem (other m : Dict) (k v : List Char)
    (hnd : NoDupKeys other) (h : dlookup k other = some v) :
    dlookup k (dupdate m other) = some v := by
  induction other generalizing m with
  | nil => simp [dlookup] at h
  | cons p ps ih =>
      obtain ⟨a, b⟩ := p
      simp only [NoDupKeys, List.map_cons, List.nodup_cons] at hnd
      obtain ⟨ha, hnd'⟩ := hnd
      by_cases hk : a = k
      · subst hk
        show dlookup a (dupdate (dset m a b) ps) = some v
        have h2 : b = v := by
          have : dlookup a ((a, b) :: ps) = some b := by
            show (if a = a then some b else dlookup a ps) = some b
            rw [if_pos rfl]
          rw [this] at h
          injection h
        subst h2
        rw [dlookup_dupdate_not_mem ps (dset m a b) a ha]
        exact dlookup_dset_self m a b
      · have h3 : dlookup k ps = some v := by
          have : dlookup k ((a, b) :: ps) = dlookup k ps := by
            show (if a = k then some b else dlookup k ps) = dlookup k ps
            rw [if_neg hk]
          rw [this] at h
          exact h
        exact ih (dset m a b) hnd' h3

theorem dlookup_dupdate (other m : Dict) (k : List Char)
    (hnd : NoDupKeys other) :
    dlookup k (dupdate m other) =
      (match dlookup k other with
       | some v => some v
       | none => dlookup k m) := by
  cases ho : dlookup k other with
  | none =>
      rw [dlookup_dupdate_not_mem other m k ((dlookup_eq_none_iff k other).mp ho)]
  | some v =>
      rw [dlookup_dupdate_of_mem other m k v hnd ho]

theorem mem_dupdate (other m : Dict) (p : List Char × List Char)
    (h : p ∈ dupdate m other) : p ∈ m ∨ p ∈ other := by
  induction other generalizing m with
  | nil => left; exact h
  | cons q ps ih =>
      rcases ih (dset m q.1 q.2) h with h2 | h2
      · rcases mem_dset m q.1 q.2 p h2 with h3 | h3
        · left; exact h3
        · right
          rw [h3]
          exact List.mem_cons_self (q.1, q.2) ps
      · right; exact List.mem_cons_of_mem q h2

/-! ### Every captured name is identifier-shaped -/

/-- Shape of an `IDENT_RE` capture: a letter followed by word characters. -/
def IdentShaped (v : List Char) : Prop :=
  ∃ c rest, v = c :: rest ∧ isAlphaA c = true ∧ rest.all isWordC = true

theorem identShaped_wordShaped {v : List Char} (h : IdentShaped v) :
    WordShaped v := by
  obtain ⟨c, rest, rfl, hc, hrest⟩ := h
  refine ⟨by simp, ?_⟩
  simp only [List.all_cons, Bool.and_eq_true]
  refine ⟨?_, hrest⟩
  simp [isWordC, hc]

theorem eatIdent_ident {cs v r : List Char} (h : eatIdent cs = some (v, r)) :
    IdentShaped v := by
  cases cs with
  | nil => simp [eatIdent] at h
  | cons c cs' =>
      by_cases hc : isAlphaA c = true
      · simp only [eatIdent, if_pos hc, Option.some.injEq, Prod.mk.injEq] at h
        obtain ⟨hv, _⟩ := h
        refine ⟨c, cs'.takeWhile isWordC, hv.symm, hc, ?_⟩
        simp only [List.all_eq_true]
        intro x hx
        exact List.mem_takeWhile_imp hx
      · rw [Bool.not_eq_true] at hc
        simp [eatIdent, hc] at h

theorem map_fst_eatIdent_ident {ds v : List Char}
    (h : (eatIdent ds).map Prod.fst = some v) : IdentShaped v := by
  cases he : eatIdent ds with
  | none => rw [he] at h; simp at h
  | some p =>
      rw [he] at h
      simp at h
      obtain ⟨v', r'⟩ := p
      exact h ▸ eatIdent_ident he

theorem isIdentFull_ident {v : List Char} (h : isIdentFull v = true) :
    IdentShaped v := by
  cases v with
  | nil => simp [isIdentFull] at h
  | cons c rest =>
      simp only [isIdentFull, Bool.and_eq_true] at h
      exact ⟨c, rest, rfl, h.1, h.2⟩

theorem opt_alt_some {α : Type} (a b : Option α) (v : α)
    (h : (a <|> b) = some v) : a = some v ∨ b = some v := by
  cases a with
  | none => right; exact h
  | some x => left; exact h

theorem colonModes_ident {ds v : List Char} (h : colonModes ds = some v) :
    IdentShaped v := by
  unfold colonModes at h
  rcases opt_alt_some _ _ _ h with h1 | h1
  · cases h1i : eatLitWs (sL "in") ds with
    | none => rw [h1i] at h1; simp at h1
    | some r1 =>
        rw [h1i] at h1
        simp only [Option.bind_eq_bind, Option.some_bind] at h1
        cases h1o : eatLitWs (sL "out") r1 with
        | none => rw [h1o] at h1; simp at h1
        | some r2 =>
            rw [h1o] at h1
            simp only [Option.some_bind] at h1
            exact map_fst_eatIdent_ident h1
  rcases opt_alt_some _ _ _ h1 with h2 | h2
  · cases h2i : eatLitWs (sL "in") ds with
    | none => rw [h2i] at h2; simp at h2
    | some r1 =>
        rw [h2i] at h2
        simp only [Option.bind_eq_bind, Option.some_bind] at h2
        exact map_fst_eatIdent_ident h2
  rcases opt_alt_some _ _ _ h2 with h3 | h3
  · cases h3o : eatLitWs (sL "out") ds with
    | none => rw [h3o] at h3; simp at h3
    | some r1 =>
        rw [h3o] at h3
        simp only [Option.bind_eq_bind, Option.some_bind] at h3
        exact map_fst_eatIdent_ident h3
  exact map_fst_eatIdent_ident h3

theorem afterColonType_ident {cs v : List Char}
    (h : afterColonType cs = some v) : IdentShaped v := by
  unfold afterColonType at h
  cases hc : eatLitWs (sL "constant") (cs.dropWhile isSpaceC) with
  | none =>
      rw [hc] at h
      exact colonModes_ident h
  | some r =>
      rw [hc] at h
      have h2 : (match colonModes r with
                 | some id => some id
                 | none => colonModes (List.dropWhile isSpaceC cs)) = some v := h
      cases hm : colonModes r with
      | none =>
          rw [hm] at h2
          exact colonModes_ident h2
      | some idv =>
          rw [hm] at h2
          injection h2 with h3
          exact h3 ▸ colonModes_ident hm

theorem searchColonType_ident {cs v : List Char}
    (h : searchColonType cs = some v) : IdentShaped v := by
  induction cs with
  | nil => simp [searchColonType] at h
  | cons c cs' ih =>
      rw [searchColonType] at h
      by_cases hcol : c = ':'
      · rw [if_pos hcol] at h
        have h2 : (match afterColonType cs' with
                   | some id => some id
                   | none => searchColonType cs') = some v := h
        cases ha : afterColonType cs' with
        | none => rw [ha] at h2; exact ih h2
        | some idv =>
            rw [ha] at h2
            injection h2 with h3
            exact h3 ▸ afterColonType_ident ha
      · rw [if_neg hcol] at h
        exact ih h

theorem kwIdentHere_ident {kw cs v : List Char}
    (h : kwIdentHere kw cs = some v) : IdentShaped v := by
  unfold kwIdentHere at h
  cases hp : ciPrefixRest kw cs with
  | none => rw [hp] at h; simp at h
  | some rest =>
      rw [hp] at h
      cases rest with
      | nil => simp at h
      | cons d r =>
          have h2 : (if isSpaceC d = true then
              (eatIdent (List.dropWhile isSpaceC (d :: r))).map Prod.fst
            else none) = some v := h
          by_cases hd : isSpaceC d = true
          · rw [if_pos hd] at h2
            exact map_fst_eatIdent_ident h2
          · rw [if_neg hd] at h2
            simp at h2

theorem searchKwIdent_ident {kw v : List Char} {b : Bool} {cs : List Char}
    (h : searchKwIdent kw b cs = some v) : IdentShaped v := by
  induction cs generalizing b with
  | nil => simp [searchKwIdent] at h
  | cons c cs' ih =>
      rw [searchKwIdent] at h
      cases hb : (if b then none else kwIdentHere kw (c :: cs')) with
      | none => rw [hb] at h; exact ih h
      | some idv =>
          rw [hb] at h
          injection h with h'
          subst h'
          cases b with
          | true => simp at hb
          | false => exact kwIdentHere_ident hb

theorem matchTypeDecl_ident {code v : List Char}
    (h : matchTypeDecl code = some v) : IdentShaped v := by
  cases h1 : eatLitWs (sL "type") (code.dropWhile isSpaceC) with
  | some r =>
      simp only [matchTypeDecl, h1] at h
      exact map_fst_eatIdent_ident h
  | none =>
      cases h2 : eatLitWs (sL "subtype") (code.dropWhile isSpaceC) with
      | some r =>
          simp only [matchTypeDecl, h1, h2] at h
          exact map_fst_eatIdent_ident h
      | none =>
          simp only [matchTypeDecl, h1, h2] at h
          cases h

theorem matchForIn_ident {cs v r : List Char}
    (h : matchForIn cs = some (v, r)) : IdentShaped v := by
  cases h1 : eatLitWs (sL "for") cs with
  | none =>
      simp only [matchForIn, h1] at h
      cases h
  | some r1 =>
      cases h2 : eatIdent r1 with
      | none =>
          simp only [matchForIn, h1, h2] at h
          cases h
      | some p =>
          obtain ⟨v', r2⟩ := p
          have hv' : IdentShaped v' := eatIdent_ident h2
          cases r2 with
          | nil =>
              simp only [matchForIn, h1, h2] at h
              cases h
          | cons c r2' =>
              simp only [matchForIn, h1, h2] at h
              by_cases hc : isSpaceC c = true
              · rw [if_pos hc] at h
                cases h4 : ciPrefixRest (sL "in") (List.dropWhile isSpaceC (c :: r2')) with
                | none =>
                    simp only [h4] at h
                    exact Option.noConfusion h
                | some rest =>
                    cases rest with
                    | nil =>
                        simp only [h4, Option.some.injEq, Prod.mk.injEq] at h
                        exact h.1 ▸ hv'
                    | cons d rest' =>
                        simp only [h4] at h
                        by_cases hd : isWordC d = true
                        · rw [if_pos hd] at h
                          cases h
                        · rw [if_neg hd] at h
                          injection h with h5
                          injection h5 with h6 h7
                          exact h6 ▸ hv'
              · rw [if_neg hc] at h
                cases h

theorem findLoopVarsF_ident {fuel : Nat} {b : Bool} {cs v : List Char}
    (h : v ∈ findLoopVarsF fuel b cs) : IdentShaped v := by
  induction fuel generalizing b cs with
  | zero => simp [findLoopVarsF] at h
  | succ n ih =>
      cases cs with
      | nil => simp [findLoopVarsF] at h
      | cons c cs' =>
          rw [findLoopVarsF] at h
          by_cases hb : b = true
          · rw [if_pos hb] at h
            exact ih h
          · rw [if_neg hb] at h
            cases hm : matchForIn (c :: cs') with
            | none => rw [hm] at h; exact ih h
            | some p =>
                rw [hm] at h
                obtain ⟨v', rest⟩ := p
                rcases List.mem_cons.mp h with h2 | h2
                · exact h2 ▸ matchForIn_ident hm
                · exact ih h2

theorem findLoopVars_ident {cs v : List Char} (h : v ∈ findLoopVars cs) :
    IdentShaped v := findLoopVarsF_ident h

theorem assignTarget_ident {code v : List Char}
    (h : assignTarget code = some v) : IdentShaped v := by
  cases h1 : eatIdent (code.dropWhile isSpaceC) with
  | none =>
      simp only [assignTarget, h1] at h
      exact Option.noConfusion h
  | some p =>
      obtain ⟨name, rest⟩ := p
      have hname := eatIdent_ident h1
      cases hr : rest.dropWhile isSpaceC with
      | nil =>
          simp only [assignTarget, h1, hr] at h
          exact Option.noConfusion h
      | cons c1 rest1 =>
          cases rest1 with
          | nil =>
              simp only [assignTarget, h1, hr] at h
              exact Option.noConfusion h
          | cons c2 rest2 =>
              simp only [assignTarget, h1, hr] at h
              by_cases hc : c1 = ':' ∧ c2 = '='
              · rw [if_pos hc] at h
                injection h with h3
                exact h3 ▸ hname
              · rw [if_neg hc] at h
                exact Option.noConfusion h

/-! ### The mapping invariant: keys are case-folded identifier words and each
assigned spelling is the key's uppercase form or the key itself -/

/-- The invariant carried by every entry of every dict the program builds. -/
def GoodEnt (p : List Char × List Char) : Prop :=
  WordShaped p.1 ∧ p.1 = toLowerL p.1 ∧ (p.2 = toUpperL p.1 ∨ p.2 = p.1)

/-- All entries of a dict satisfy the invariant. -/
def AllGood (m : Dict) : Prop := ∀ p ∈ m, GoodEnt p

theorem goodEnt_upper {name : List Char} (h : WordShaped name) :
    GoodEnt (toLowerL name, toUpperL name) := by
  refine ⟨wordShaped_toLowerL h, (toLowerL_idem name).symm, Or.inl ?_⟩
  exact (toUpperL_toLowerL name).symm

theorem goodEnt_lower {name : List Char} (h : WordShaped name) :
    GoodEnt (toLowerL name, toLowerL name) :=
  ⟨wordShaped_toLowerL h, (toLowerL_idem name).symm, Or.inr rfl⟩

theorem allGood_nil : AllGood [] := fun p hp => absurd hp (List.not_mem_nil p)

theorem allGood_dset {m : Dict} {k v : List Char} (hm : AllGood m)
    (he : GoodEnt (k, v)) : AllGood (dset m k v) := by
  intro p hp
  rcases mem_dset m k v p hp with h | h
  · exact hm p h
  · exact h ▸ he

theorem allGood_dupdate {m other : Dict} (hm : AllGood m)
    (ho : AllGood other) : AllGood (dupdate m other) := by
  intro p hp
  rcases mem_dupdate other m p hp with h | h
  · exact hm p h
  · exact ho p h

theorem allGood_collect_type_names (line : List Char) :
    AllGood (collect_type_names line) := by
  unfold collect_type_names
  have g1 : AllGood (match searchColonType (strip_comment line) with
      | some t => dset [] (toLowerL t) (toUpperL t)
      | none => []) := by
    cases h1 : searchColonType (strip_comment line) with
    | none => exact allGood_nil
    | some t =>
        exact allGood_dset allGood_nil
          (goodEnt_upper (identShaped_wordShaped (searchColonType_ident h1)))
  have g2 : ∀ m : Dict, AllGood m → AllGood (if containsWordCI (sL "array") false (strip_comment line) then
      match searchKwIdent (sL "of") false (strip_comment line) with
      | some t => dset m (toLowerL t) (toUpperL t)
      | none => m
    else m) := by
    intro m hm
    by_cases ha : containsWordCI (sL "array") false (strip_comment line) = true
    · rw [if_pos ha]
      cases h2 : searchKwIdent (sL "of") false (strip_comment line) with
      | none => exact hm
      | some t =>
          exact allGood_dset hm
            (goodEnt_upper (identShaped_wordShaped (searchKwIdent_ident h2)))
    · rw [if_neg ha]
      exact hm
  have g3 : ∀ m : Dict, AllGood m → AllGood (match searchKwIdent (sL "return") false (strip_comment line) with
      | some t => dset m (toLowerL t) (toUpperL t)
      | none => m) := by
    intro m hm
    cases h3 : searchKwIdent (sL "return") false (strip_comment line) with
    | none => exact hm
    | some t =>
        exact allGood_dset hm
          (goodEnt_upper (identShaped_wordShaped (searchKwIdent_ident h3)))
  exact g3 _ (g2 _ g1)

theorem allGood_foldl {α : Type} (f : Dict → α → Dict) (l : List α) (m : Dict)
    (hf : ∀ acc a, AllGood acc → AllGood (f acc a)) (hm : AllGood m) :
    AllGood (l.foldl f m) := by
  induction l generalizing m with
  | nil => exact hm
  | cons a l ih => exact ih (f m a) (hf m a hm)

theorem ndk_foldl {α : Type} (f : Dict → α → Dict) (l : List α) (m : Dict)
    (hf : ∀ acc a, NoDupKeys acc → NoDupKeys (f acc a)) (hm : NoDupKeys m) :
    NoDupKeys (l.foldl f m) := by
  induction l generalizing m with
  | nil => exact hm
  | cons a l ih => exact ih (f m a) (hf m a hm)

theorem ndk_nil : NoDupKeys [] := List.nodup_nil

theorem ndk_collect_type_names (line : List Char) :
    NoDupKeys (collect_type_names line) := by
  unfold collect_type_names
  have g1 : NoDupKeys (match searchColonType (strip_comment line) with
      | some t => dset [] (toLowerL t) (toUpperL t)
      | none => []) := by
    cases searchColonType (strip_comment line) with
    | none => exact ndk_nil
    | some t => exact ndk_dset [] _ _ ndk_nil
  have g2 : ∀ m : Dict, NoDupKeys m →
      NoDupKeys (if containsWordCI (sL "array") false (strip_comment line) then
        match searchKwIdent (sL "of") false (strip_comment line) with
        | some t => dset m (toLowerL t) (toUpperL t)
        | none => m
      else m) := by
    intro m hm
    by_cases ha : containsWordCI (sL "array") false (strip_comment line) = true
    · rw [if_pos ha]
      cases searchKwIdent (sL "of") false (strip_comment line) with
      | none => exact hm
      | some t => exact ndk_dset m _ _ hm
    · rw [if_neg ha]; exact hm
  have g3 : ∀ m : Dict, NoDupKeys m →
      NoDupKeys (match searchKwIdent (sL "return") false (strip_comment line) with
        | some t => dset m (toLowerL t) (toUpperL t)
        | none => m) := by
    intro m hm
    cases searchKwIdent (sL "return") false (strip_comment line) with
    | none => exact hm
    | some t => exact ndk_dset m _ _ hm
  exact g3 _ (g2 _ g1)

theorem goodEnt_objDeclValue (isConst mvu : Bool) (name : List Char)
    (h : WordShaped name) :
    GoodEnt (toLowerL name, objDeclValue isConst mvu name) := by
  unfold objDeclValue
  by_cases h1 : isConst = true
  · rw [if_pos h1]; exact goodEnt_upper h
  · rw [if_neg h1]
    by_cases h2 : mvu = true
    · rw [if_pos h2]; exact goodEnt_upper h
    · rw [if_neg h2]; exact goodEnt_lower h

theorem allGood_objIdsFold (isConst mvu : Bool) (ids : Dict)
    (parts : List (List Char)) (h : AllGood ids) :
    AllGood (objIdsFold isConst mvu ids parts) := by
  apply allGood_foldl _ _ _ _ h
  intro acc idr hacc
  by_cases h1 : (stripB idr).isEmpty = true
  · rw [if_pos h1]; exact hacc
  · rw [if_neg h1]
    by_cases h2 : isIdentFull (stripB idr) = true
    · rw [h2]
      simp only [Bool.not_true, Bool.false_eq_true, if_false]
      exact allGood_dset hacc
        (goodEnt_objDeclValue isConst mvu (stripB idr)
          (identShaped_wordShaped (isIdentFull_ident h2)))
    · rw [Bool.not_eq_true] at h2
      rw [h2]
      simp only [Bool.not_false, if_true]
      exact hacc

theorem ndk_objIdsFold (isConst mvu : Bool) (ids : Dict)
    (parts : List (List Char)) (h : NoDupKeys ids) :
    NoDupKeys (objIdsFold isConst mvu ids parts) := by
  apply ndk_foldl _ _ _ _ h
  intro acc idr hacc
  by_cases h1 : (stripB idr).isEmpty = true
  · rw [if_pos h1]; exact hacc
  · rw [if_neg h1]
    by_cases h2 : isIdentFull (stripB idr) = true
    · rw [h2]
      simp only [Bool.not_true, Bool.false_eq_true, if_false]
      exact ndk_dset acc _ _ hacc
    · rw [Bool.not_eq_true] at h2
      rw [h2]
      simp only [Bool.not_false, if_true]
      exact hacc

theorem allGood_declStep (mvu : Bool) (st : Dict × Dict) (raw : List Char)
    (h1 : AllGood st.1) (h2 : AllGood st.2) :
    AllGood (declStep mvu st raw).1 ∧ AllGood (declStep mvu st raw).2 := by
  unfold declStep
  by_cases he : (stripB (stripRgt (strip_comment raw))).isEmpty = true
  · rw [if_pos he]; exact ⟨h1, h2⟩
  · rw [if_neg he]
    cases ht : matchTypeDecl (stripRgt (strip_comment raw)) with
    | some name =>
        refine ⟨?_, ?_⟩
        · exact allGood_dset h1
            (goodEnt_upper (identShaped_wordShaped (matchTypeDecl_ident ht)))
        · exact allGood_dupdate h2 (allGood_collect_type_names _)
    | none =>
        cases ho : matchObjDecl (stripRgt (strip_comment raw)) with
        | some p =>
            obtain ⟨idPart, rest⟩ := p
            refine ⟨?_, ?_⟩
            · exact allGood_objIdsFold _ _ _ _ h1
            · exact allGood_dupdate h2 (allGood_collect_type_names _)
        | none => exact ⟨h1, h2⟩

theorem ndk_declStep (mvu : Bool) (st : Dict × Dict) (raw : List Char)
    (h1 : NoDupKeys st.1) (h2 : NoDupKeys st.2) :
    NoDupKeys (declStep mvu st raw).1 ∧ NoDupKeys (declStep mvu st raw).2 := by
  unfold declStep
  by_cases he : (stripB (stripRgt (strip_comment raw))).isEmpty = true
  · rw [if_pos he]; exact ⟨h1, h2⟩
  · rw [if_neg he]
    cases ht : matchTypeDecl (stripRgt (strip_comment raw)) with
    | some name =>
        exact ⟨ndk_dset st.1 _ _ h1, ndk_dupdate st.2 _ h2⟩
    | none =>
        cases ho : matchObjDecl (stripRgt (strip_comment raw)) with
        | some p =>
            obtain ⟨idPart, rest⟩ := p
            exact ⟨ndk_objIdsFold _ _ _ _ h1, ndk_dupdate st.2 _ h2⟩
        | none => exact ⟨h1, h2⟩

theorem allGood_collect_declarations (lines : List (List Char)) (mvu : Bool) :
    AllGood (collect_declarations lines mvu).1 ∧
      AllGood (collect_declarations lines mvu).2 := by
  unfold collect_declarations
  have hgen : ∀ st : Dict × Dict, AllGood st.1 → AllGood st.2 →
      AllGood (lines.foldl (declStep mvu) st).1 ∧
        AllGood (lines.foldl (declStep mvu) st).2 := by
    induction lines with
    | nil => intro st a b; exact ⟨a, b⟩
    | cons l ls ih =>
        intro st a b
        have := allGood_declStep mvu st l a b
        exact ih (declStep mvu st l) this.1 this.2
  exact hgen ([], []) allGood_nil allGood_nil

theorem ndk_collect_declarations (lines : List (List Char)) (mvu : Bool) :
    NoDupKeys (collect_declarations lines mvu).1 ∧
      NoDupKeys (collect_declarations lines mvu).2 := by
  unfold collect_declarations
  have hgen : ∀ st : Dict × Dict, NoDupKeys st.1 → NoDupKeys st.2 →
      NoDupKeys (lines.foldl (declStep mvu) st).1 ∧
        NoDupKeys (lines.foldl (declStep mvu) st).2 := by
    induction lines with
    | nil => intro st a b; exact ⟨a, b⟩
    | cons l ls ih =>
        intro st a b
        have := ndk_declStep mvu st l a b
        exact ih (declStep mvu st l) this.1 this.2
  exact hgen ([], []) ndk_nil ndk_nil

theorem allGood_collect_package_mapping (text : List Char) :
    AllGood (collect_package_mapping text) := by
  unfold collect_package_mapping
  have h := allGood_collect_declarations (splitLines text) true
  exact allGood_dupdate (allGood_dupdate allGood_nil h.1) h.2

theorem ndk_collect_package_mapping (text : List Char) :
    NoDupKeys (collect_package_mapping text) := by
  unfold collect_package_mapping
  exact ndk_dupdate _ _ (ndk_dupdate _ _ ndk_nil)

theorem allGood_paramStep (m : Dict) (group : List Char) (h : AllGood m) :
    AllGood (paramStep m group) := by
  unfold paramStep
  cases matchObjDecl (strip_comment group) with
  | some p =>
      obtain ⟨idPart, rest⟩ := p
      refine allGood_dupdate ?_ (allGood_collect_type_names _)
      apply allGood_foldl _ _ _ _ h
      intro acc idr hacc
      by_cases h1 : (stripB idr).isEmpty = true
      · rw [if_pos h1]; exact hacc
      · rw [if_neg h1]
        by_cases h2 : isIdentFull (stripB idr) = true
        · rw [h2]
          simp only [Bool.not_true, Bool.false_eq_true, if_false]
          exact allGood_dset hacc
            (goodEnt_lower (identShaped_wordShaped (isIdentFull_ident h2)))
        · rw [Bool.not_eq_true] at h2
          rw [h2]
          simp only [Bool.not_false, if_true]
          exact hacc
  | none => exact allGood_dupdate h (allGood_collect_type_names _)

theorem ndk_paramStep (m : Dict) (group : List Char) (h : NoDupKeys m) :
    NoDupKeys (paramStep m group) := by
  unfold paramStep
  cases matchObjDecl (strip_comment group) with
  | some p =>
      obtain ⟨idPart, rest⟩ := p
      refine ndk_dupdate _ _ ?_
      apply ndk_foldl _ _ _ _ h
      intro acc idr hacc
      by_cases h1 : (stripB idr).isEmpty = true
      · rw [if_pos h1]; exact hacc
      · rw [if_neg h1]
        by_cases h2 : isIdentFull (stripB idr) = true
        · rw [h2]
          simp only [Bool.not_true, Bool.false_eq_true, if_false]
          exact ndk_dset acc _ _ hacc
        · rw [Bool.not_eq_true] at h2
          rw [h2]
          simp only [Bool.not_false, if_true]
          exact hacc
  | none => exact ndk_dupdate _ _ h

theorem allGood_foldl_mem {α : Type} (f : Dict → α → Dict) (l : List α)
    (m : Dict) (hf : ∀ acc a, a ∈ l → AllGood acc → AllGood (f acc a))
    (hm : AllGood m) : AllGood (l.foldl f m) := by
  induction l generalizing m with
  | nil => exact hm
  | cons a l ih =>
      apply ih (f m a)
      · intro acc b hb hacc
        exact hf acc b (List.mem_cons_of_mem a hb) hacc
      · exact hf m a (List.mem_cons_self a l) hm

theorem allGood_loopStep (m : Dict) (v : List Char) (hm : AllGood m)
    (hv : IdentShaped v) : AllGood (loopStep m v) := by
  cases hl : dlookup (toLowerL v) m with
  | none =>
      simp only [loopStep, hl]
      exact allGood_dset hm (goodEnt_lower (identShaped_wordShaped hv))
  | some w =>
      simp only [loopStep, hl]
      by_cases hw : pyIsUpper w = true
      · rw [if_pos hw]
        exact allGood_dset hm (goodEnt_lower (identShaped_wordShaped hv))
      · rw [if_neg hw]
        exact hm

theorem ndk_loopStep (m : Dict) (v : List Char) (hm : NoDupKeys m) :
    NoDupKeys (loopStep m v) := by
  cases hl : dlookup (toLowerL v) m with
  | none =>
      simp only [loopStep, hl]
      exact ndk_dset m _ _ hm
  | some w =>
      simp only [loopStep, hl]
      by_cases hw : pyIsUpper w = true
      · rw [if_pos hw]
        exact ndk_dset m _ _ hm
      · rw [if_neg hw]
        exact hm

theorem allGood_extStep (m : Dict) (raw : List Char) (hm : AllGood m) :
    AllGood (extStep m raw) := by
  cases ha : assignTarget (strip_comment raw) with
  | none => simp only [extStep, ha]; exact hm
  | some name =>
      simp only [extStep, ha]
      by_cases hl : (dlookup (toLowerL name) m).isNone = true
      · rw [if_pos hl]
        exact allGood_dset hm
          (goodEnt_upper (identShaped_wordShaped (assignTarget_ident ha)))
      · rw [if_neg hl]
        exact hm

theorem ndk_extStep (m : Dict) (raw : List Char) (hm : NoDupKeys m) :
    NoDupKeys (extStep m raw) := by
  cases ha : assignTarget (strip_comment raw) with
  | none => simp only [extStep, ha]; exact hm
  | some name =>
      simp only [extStep, ha]
      by_cases hl : (dlookup (toLowerL name) m).isNone = true
      · rw [if_pos hl]
        exact ndk_dset m _ _ hm
      · rw [if_neg hl]
        exact hm

theorem allGood_stageGlobals (text : List Char) (ps : Nat) :
    AllGood (stageGlobals text ps) := by
  unfold stageGlobals
  have h := allGood_collect_declarations (splitLines (text.take ps)) true
  exact allGood_dupdate (allGood_dupdate allGood_nil h.1) h.2

theorem ndk_stageGlobals (text : List Char) (ps : Nat) :
    NoDupKeys (stageGlobals text ps) := by
  unfold stageGlobals
  exact ndk_dupdate _ _ (ndk_dupdate _ _ ndk_nil)

theorem allGood_stageParams (m : Dict) (header : List Char) (hm : AllGood m) :
    AllGood (stageParams m header) := by
  unfold stageParams
  cases parenContent header with
  | none => exact hm
  | some params =>
      exact allGood_foldl _ _ _ (fun acc a hacc => allGood_paramStep acc a hacc) hm

theorem ndk_stageParams (m : Dict) (header : List Char) (hm : NoDupKeys m) :
    NoDupKeys (stageParams m header) := by
  unfold stageParams
  cases parenContent header with
  | none => exact hm
  | some params =>
      exact ndk_foldl _ _ _ (fun acc a hacc => ndk_paramStep acc a hacc) hm

theorem allGood_stageReturn (m : Dict) (header : List Char) (hm : AllGood m) :
    AllGood (stageReturn m header) := by
  unfold stageReturn
  cases hr : searchKwIdent (sL "return") false header with
  | none => exact hm
  | some rt =>
      exact allGood_dset hm
        (goodEnt_upper (identShaped_wordShaped (searchKwIdent_ident hr)))

theorem ndk_stageReturn (m : Dict) (header : List Char) (hm : NoDupKeys m) :
    NoDupKeys (stageReturn m header) := by
  unfold stageReturn
  cases searchKwIdent (sL "return") false header with
  | none => exact hm
  | some rt => exact ndk_dset m _ _ hm

theorem allGood_stageLocals (m : Dict) (dls : List (List Char))
    (hm : AllGood m) : AllGood (stageLocals m dls) := by
  unfold stageLocals
  have h := allGood_collect_declarations dls false
  exact allGood_dupdate (allGood_dupdate hm h.1) h.2

theorem ndk_stageLocals (m : Dict) (dls : List (List Char))
    (hm : NoDupKeys m) : NoDupKeys (stageLocals m dls) := by
  unfold stageLocals
  exact ndk_dupdate _ _ (ndk_dupdate _ _ hm)

theorem allGood_stageLoops (m : Dict) (nct : List Char) (hm : AllGood m) :
    AllGood (stageLoops m nct) := by
  unfold stageLoops
  apply allGood_foldl_mem _ _ _ ?_ hm
  intro acc a ha hacc
  exact allGood_loopStep acc a hacc (findLoopVars_ident ha)

theorem ndk_stageLoops (m : Dict) (nct : List Char) (hm : NoDupKeys m) :
    NoDupKeys (stageLoops m nct) := by
  unfold stageLoops
  exact ndk_foldl _ _ _ (fun acc a hacc => ndk_loopStep acc a hacc) hm

theorem allGood_stageExternal (m : Dict) (text : List Char) (hm : AllGood m) :
    AllGood (stageExternal m text) := by
  unfold stageExternal
  exact allGood_foldl _ _ _ (fun acc a hacc => allGood_extStep acc a hacc) hm

theorem ndk_stageExternal (m : Dict) (text : List Char) (hm : NoDupKeys m) :
    NoDupKeys (stageExternal m text) := by
  unfold stageExternal
  exact ndk_foldl _ _ _ (fun acc a hacc => ndk_extStep acc a hacc) hm

theorem allGood_collect_subprogram_mapping (text : List Char) :
    AllGood (collect_subprogram_mapping text) := by
  cases h1 : find_first_subprogram text with
  | none =>
      simp only [collect_subprogram_mapping, h1]
      exact allGood_collect_package_mapping text
  | some p =>
      obtain ⟨kw, ps⟩ := p
      cases h2 : find_keyword_after text (sL "is") ps with
      | none =>
          simp only [collect_subprogram_mapping, h1, h2]
          exact allGood_stageGlobals text ps
      | some ip =>
          cases h3 : find_keyword_after text (sL "begin") ip with
          | none =>
              simp only [collect_subprogram_mapping, h1, h2, h3]
              exact allGood_stageGlobals text ps
          | some bp =>
              simp only [collect_subprogram_mapping, h1, h2, h3]
              apply allGood_stageExternal
              unfold mapThroughLoops mapThroughLocals mapThroughReturn
              apply allGood_stageLoops
              apply allGood_stageLocals
              apply allGood_stageReturn
              apply allGood_stageParams
              exact allGood_stageGlobals text ps

theorem ndk_collect_subprogram_mapping (text : List Char) :
    NoDupKeys (collect_subprogram_mapping text) := by
  cases h1 : find_first_subprogram text with
  | none =>
      simp only [collect_subprogram_mapping, h1]
      exact ndk_collect_package_mapping text
  | some p =>
      obtain ⟨kw, ps⟩ := p
      cases h2 : find_keyword_after text (sL "is") ps with
      | none =>
          simp only [collect_subprogram_mapping, h1, h2]
          exact ndk_stageGlobals text ps
      | some ip =>
          cases h3 : find_keyword_after text (sL "begin") ip with
          | none =>
              simp only [collect_subprogram_mapping, h1, h2, h3]
              exact ndk_stageGlobals text ps
          | some bp =>
              simp only [collect_subprogram_mapping, h1, h2, h3]
              apply ndk_stageExternal
              unfold mapThroughLoops mapThroughLocals mapThroughReturn
              apply ndk_stageLoops
              apply ndk_stageLocals
              apply ndk_stageReturn
              apply ndk_stageParams
              exact ndk_stageGlobals text ps

/-! ### All values uppercase under the uppercase-default policy -/

/-- Every assigned spelling is the uppercase form of its key. -/
def AllUpper (m : Dict) : Prop := ∀ p ∈ m, p.2 = toUpperL p.1

theorem predDict_foldl {α : Type} (P : Dict → Prop) (f : Dict → α → Dict)
    (l : List α) (m : Dict) (hf : ∀ acc a, P acc → P (f acc a)) (hm : P m) :
    P (l.foldl f m) := by
  induction l generalizing m with
  | nil => exact hm
  | cons a l ih => exact ih (f m a) (hf m a hm)

theorem allUpper_nil : AllUpper [] := fun p hp => absurd hp (List.not_mem_nil p)

theorem allUpper_dset {m : Dict} {k v : List Char} (hm : AllUpper m)
    (he : v = toUpperL k) : AllUpper (dset m k v) := by
  intro p hp
  rcases mem_dset m k v p hp with h | h
  · exact hm p h
  · rw [h]; exact he

theorem allUpper_dupdate {m other : Dict} (hm : AllUpper m)
    (ho : AllUpper other) : AllUpper (dupdate m other) := by
  intro p hp
  rcases mem_dupdate other m p hp with h | h
  · exact hm p h
  · exact ho p h

theorem upper_of_lower_key (name : List Char) :
    toUpperL name = toUpperL (toLowerL name) := (toUpperL_toLowerL name).symm

theorem allUpper_collect_type_names (line : List Char) :
    AllUpper (collect_type_names line) := by
  unfold collect_type_names
  have g1 : AllUpper (match searchColonType (strip_comment line) with
      | some t => dset [] (toLowerL t) (toUpperL t)
      | none => []) := by
    cases searchColonType (strip_comment line) with
    | none => exact allUpper_nil
    | some t => exact allUpper_dset allUpper_nil (upper_of_lower_key t)
  have g2 : ∀ m : Dict, AllUpper m →
      AllUpper (if containsWordCI (sL "array") false (strip_comment line) then
        match searchKwIdent (sL "of") false (strip_comment line) with
        | some t => dset m (toLowerL t) (toUpperL t)
        | none => m
      else m) := by
    intro m hm
    by_cases ha : containsWordCI (sL "array") false (strip_comment line) = true
    · rw [if_pos ha]
      cases searchKwIdent (sL "of") false (strip_comment line) with
      | none => exact hm
      | some t => exact allUpper_dset hm (upper_of_lower_key t)
    · rw [if_neg ha]; exact hm
  have g3 : ∀ m : Dict, AllUpper m →
      AllUpper (match searchKwIdent (sL "return") false (strip_comment line) with
        | some t => dset m (toLowerL t) (toUpperL t)
        | none => m) := by
    intro m hm
    cases searchKwIdent (sL "return") false (strip_comment line) with
    | none => exact hm
    | some t => exact allUpper_dset hm (upper_of_lower_key t)
  exact g3 _ (g2 _ g1)

theorem objDeclValue_upper (isConst : Bool) (name : List Char) :
    objDeclValue isConst true name = toUpperL name := by
  unfold objDeclValue
  by_cases h : isConst = true
  · rw [if_pos h]
  · rw [if_neg h, if_pos rfl]

theorem allUpper_declStep (st : Dict × Dict) (raw : List Char)
    (h1 : AllUpper st.1) (h2 : AllUpper st.2) :
    AllUpper (declStep true st raw).1 ∧ AllUpper (declStep true st raw).2 := by
  unfold declStep
  by_cases he : (stripB (stripRgt (strip_comment raw))).isEmpty = true
  · rw [if_pos he]; exact ⟨h1, h2⟩
  · rw [if_neg he]
    cases ht : matchTypeDecl (stripRgt (strip_comment raw)) with
    | some name =>
        exact ⟨allUpper_dset h1 (upper_of_lower_key name),
          allUpper_dupdate h2 (allUpper_collect_type_names _)⟩
    | none =>
        cases ho : matchObjDecl (stripRgt (strip_comment raw)) with
        | some p =>
            obtain ⟨idPart, rest⟩ := p
            refine ⟨?_, allUpper_dupdate h2 (allUpper_collect_type_names _)⟩
            show AllUpper (objIdsFold (containsWordCI (sL "constant") false rest)
              true st.1 (splitOnC ',' idPart))
            unfold objIdsFold
            apply predDict_foldl AllUpper _ _ _ ?_ h1
            intro acc idr hacc
            by_cases hb1 : (stripB idr).isEmpty = true
            · rw [if_pos hb1]; exact hacc
            · rw [if_neg hb1]
              by_cases hb2 : isIdentFull (stripB idr) = true
              · rw [hb2]
                simp only [Bool.not_true, Bool.false_eq_true, if_false]
                refine allUpper_dset hacc ?_
                rw [objDeclValue_upper]
                exact upper_of_lower_key (stripB idr)
              · rw [Bool.not_eq_true] at hb2
                rw [hb2]
                simp only [Bool.not_false, if_true]
                exact hacc
        | none => exact ⟨h1, h2⟩

theorem allUpper_collect_declarations (lines : List (List Char)) :
    AllUpper (collect_declarations lines true).1 ∧
      AllUpper (collect_declarations lines true).2 := by
  unfold collect_declarations
  have hgen : ∀ st : Dict × Dict, AllUpper st.1 → AllUpper st.2 →
      AllUpper (lines.foldl (declStep true) st).1 ∧
        AllUpper (lines.foldl (declStep true) st).2 := by
    induction lines with
    | nil => intro st a b; exact ⟨a, b⟩
    | cons l ls ih =>
        intro st a b
        have := allUpper_declStep st l a b
        exact ih (declStep true st l) this.1 this.2
  exact hgen ([], []) allUpper_nil allUpper_nil

theorem allUpper_collect_package_mapping (text : List Char) :
    AllUpper (collect_package_mapping text) := by
  unfold collect_package_mapping
  have h := allUpper_collect_declarations (splitLines text)
  exact allUpper_dupdate (allUpper_dupdate allUpper_nil h.1) h.2

/-! ### Unit-classification lemmas (claim C7) -/

/-- Premise of C7 as written: no comment-stripped line starts
(case-insensitively) with `package `, `procedure ` or `function `. -/
def noUnitKwLines (text : List Char) : Bool :=
  (splitLines text).all
    (fun l =>
      !((sL "package ").isPrefixOf (toLowerL (stripB (strip_comment l))) ||
        (sL "procedure ").isPrefixOf (toLowerL (stripB (strip_comment l))) ||
        (sL "function ").isPrefixOf (toLowerL (stripB (strip_comment l)))))

/-- The boundary locator finds no whole-word `procedure`/`function` in any
comment-stripped line. -/
def noSubprogKw (text : List Char) : Bool :=
  (splitLinesKeep text).all
    (fun l => (searchPF false 0 (strip_comment l)).isNone)

theorem isPackageUnitGo_false {ls : List (List Char)}
    (h : ∀ l ∈ ls, ¬ (sL "package ").isPrefixOf (toLowerL (stripB (strip_comment l))) = true) :
    isPackageUnitGo ls = false := by
  induction ls with
  | nil => rfl
  | cons l ls ih =>
      have hl := h l (List.mem_cons_self l ls)
      have hrest : ∀ l' ∈ ls,
          ¬ (sL "package ").isPrefixOf (toLowerL (stripB (strip_comment l'))) = true :=
        fun l' hl' => h l' (List.mem_cons_of_mem l hl')
      rw [isPackageUnitGo]
      by_cases h1 : (toLowerL (stripB (strip_comment l))).isEmpty = true
      · rw [if_pos h1]
        exact ih hrest
      · rw [if_neg h1]
        by_cases h2 : ((sL "with ").isPrefixOf (toLowerL (stripB (strip_comment l))) ||
            (sL "use ").isPrefixOf (toLowerL (stripB (strip_comment l)))) = true
        · rw [if_pos h2]
          exact ih hrest
        · rw [if_neg h2]
          rw [if_neg hl]
          by_cases h3 : ((sL "procedure ").isPrefixOf (toLowerL (stripB (strip_comment l))) ||
              (sL "function ").isPrefixOf (toLowerL (stripB (strip_comment l)))) = true
          · rw [if_pos h3]
          · rw [if_neg h3]
            exact ih hrest

theorem is_package_unit_false_of_noUnitKwLines {text : List Char}
    (h : noUnitKwLines text = true) : is_package_unit text = false := by
  unfold is_package_unit
  apply isPackageUnitGo_false
  intro l hl
  have := (List.all_eq_true.mp h) l hl
  simp only [Bool.not_eq_eq_eq_not, Bool.not_true, Bool.or_eq_false_iff] at this
  intro hc
  rw [this.1.1] at hc
  exact Bool.false_ne_true hc

theorem ffsGo_none {ls : List (List Char)} {off : Nat}
    (h : ∀ l ∈ ls, (searchPF false 0 (strip_comment l)).isNone = true) :
    ffsGo ls off = none := by
  induction ls generalizing off with
  | nil => rfl
  | cons l ls ih =>
      have hl := h l (List.mem_cons_self l ls)
      rw [ffsGo]
      cases hs : searchPF false 0 (strip_comment l) with
      | none => exact ih (fun l' hl' => h l' (List.mem_cons_of_mem l hl')) 
      | some p => rw [hs] at hl; simp at hl

theorem find_first_subprogram_none_of_noSubprogKw {text : List Char}
    (h : noSubprogKw text = true) : find_first_subprogram text = none := by
  unfold find_first_subprogram
  exact ffsGo_none (fun l hl => (List.all_eq_true.mp h) l hl)

/-- C7 (amended): under the claim's premise strengthened with "the boundary
locator finds no whole-word subprogram keyword in any comment-stripped
line", the file is classified as a subprogram unit, the subprogram path
falls back to package-style scanning of the entire file, and every mapping
entry's assigned spelling is the fully uppercase form of its key. -/
theorem C7_default_classification_fallback (text : List Char)
    (h1 : noUnitKwLines text = true) (h2 : noSubprogKw text = true) :
    is_package_unit text = false ∧
      collect_subprogram_mapping text = collect_package_mapping text ∧
      ∀ p ∈ collect_package_mapping text, p.2 = toUpperL p.1 := by
  refine ⟨is_package_unit_false_of_noUnitKwLines h1, ?_, ?_⟩
  · simp only [collect_subprogram_mapping,
      find_first_subprogram_none_of_noSubprogKw h2]
  · exact fun p hp => allUpper_collect_package_mapping text p hp

/-- Example: a file whose lines start with none of the unit keywords but
whose first line contains a whole-word `function` mid-line. -/
def exC7 : List Char := sL "pragma function\ny : integer;\n"

/-- C7 counterexample: `exC7` satisfies the claim's premise (no line starts
with `package`/`procedure`/`function`), yet the subprogram path does not
fall back to package-style scanning: the declared name `y` gets no mapping
entry at all, while package-style scanning would map it to `Y`. -/
theorem C7_counterexample :
    noUnitKwLines exC7 = true ∧
      is_package_unit exC7 = false ∧
      collect_subprogram_mapping exC7 ≠ collect_package_mapping exC7 ∧
      dlookup (sL "y") (collect_subprogram_mapping exC7) = none ∧
      dlookup (sL "y") (collect_package_mapping exC7) = some (sL "Y") := by
  refine ⟨by decide, by decide, by decide, by decide, by decide⟩

/-- Simple declarations-only file used as the C7 witness input. -/
def exC7w : List Char := sL "x : integer;\nmax_len : constant integer := 10;\n"

/-- Witness for C7: the amended theorem applied to a concrete file. -/
theorem C7_witness :
    noUnitKwLines exC7w = true ∧ noSubprogKw exC7w = true ∧
      (is_package_unit exC7w = false ∧
        collect_subprogram_mapping exC7w = collect_package_mapping exC7w ∧
        ∀ p ∈ collect_package_mapping exC7w, p.2 = toUpperL p.1) :=
  ⟨by decide, by decide,
    C7_default_classification_fallback exC7w (by decide) (by decide)⟩

/-! ### Claim C8 -/

/-- C8: in every mapping either builder produces, each key is its own
case-folded (lowercase) form and is a nonempty word-character identifier,
and each assigned spelling is either the key's fully uppercase form or the
key itself. -/
theorem C8_mapping_casing_invariant (text : List Char)
    (p : List Char × List Char)
    (h : p ∈ collect_package_mapping text ∨ p ∈ collect_subprogram_mapping text) :
    (p.1 ≠ [] ∧ p.1.all isWordC = true) ∧ p.1 = toLowerL p.1 ∧
      (p.2 = toUpperL p.1 ∨ p.2 = p.1) := by
  rcases h with h | h
  · exact allGood_collect_package_mapping text p h
  · exact allGood_collect_subprogram_mapping text p h

/-- Package file used by several witnesses (spec example 1). -/
def exPkg : List Char := sL "package Pkg is\n   X : Integer := 0;\nend Pkg;\n"

/-- Witness for C8 at a concrete entry of a concrete file's mapping. -/
theorem C8_witness :
    ((sL "x", sL "X") ∈ collect_package_mapping exPkg ∨
      (sL "x", sL "X") ∈ collect_subprogram_mapping exPkg) ∧
      ((sL "x" ≠ [] ∧ (sL "x").all isWordC = true) ∧ sL "x" = toLowerL (sL "x") ∧
        (sL "X" = toUpperL (sL "x") ∨ sL "X" = sL "x")) :=
  ⟨Or.inl (by decide),
    C8_mapping_casing_invariant exPkg (sL "x", sL "X") (Or.inl (by decide))⟩

/-! ### Per-key behaviour of the loop-variable and external-global stages -/

theorem extStep_preserves_present {m : Dict} {k w raw : List Char}
    (h : dlookup k m = some w) : dlookup k (extStep m raw) = some w := by
  cases ha : assignTarget (strip_comment raw) with
  | none => simp only [extStep, ha]; exact h
  | some name =>
      simp only [extStep, ha]
      by_cases hl : (dlookup (toLowerL name) m).isNone = true
      · rw [if_pos hl]
        by_cases hk : toLowerL name = k
        · rw [hk] at hl
          rw [h] at hl
          simp at hl
        · rw [dlookup_dset_other m (toLowerL name) k (toUpperL name)
            (fun he => hk he.symm)]
          exact h
      · rw [if_neg hl]
        exact h

theorem stageExternal_preserves_present {m : Dict} {k w text : List Char}
    (h : dlookup k m = some w) :
    dlookup k (stageExternal m text) = some w := by
  unfold stageExternal
  exact predDict_foldl (fun d => dlookup k d = some w) _ _ _
    (fun acc a hacc => extStep_preserves_present hacc) h

theorem loopStep_preserves_self {m : Dict} {k v : List Char}
    (h : dlookup k m = some k) : dlookup k (loopStep m v) = some k := by
  by_cases hk : toLowerL v = k
  · subst hk
    cases hl : dlookup (toLowerL v) m with
    | none => rw [hl] at h; exact Option.noConfusion h
    | some w =>
        simp only [loopStep, hl]
        rw [hl] at h
        injection h with h2
        subst h2
        by_cases hw : pyIsUpper (toLowerL v) = true
        · rw [if_pos hw]
          exact dlookup_dset_self m (toLowerL v) (toLowerL v)
        · rw [if_neg hw]
          exact hl
  · cases hl : dlookup (toLowerL v) m with
    | none =>
        simp only [loopStep, hl]
        rw [dlookup_dset_other m (toLowerL v) k (toLowerL v) (fun he => hk he.symm)]
        exact h
    | some w =>
        simp only [loopStep, hl]
        by_cases hw : pyIsUpper w = true
        · rw [if_pos hw]
          rw [dlookup_dset_other m (toLowerL v) k (toLowerL v) (fun he => hk he.symm)]
          exact h
        · rw [if_neg hw]
          exact h

theorem stageLoops_preserves_self {m : Dict} {k nct : List Char}
    (h : dlookup k m = some k) : dlookup k (stageLoops m nct) = some k := by
  unfold stageLoops
  exact predDict_foldl (fun d => dlookup k d = some k) _ _ _
    (fun acc a hacc => loopStep_preserves_self hacc) h

theorem loopFold_not_mem {vs : List (List Char)} {m : Dict} {k : List Char}
    (h : k ∉ vs.map toLowerL) :
    dlookup k (vs.foldl loopStep m) = dlookup k m := by
  induction vs generalizing m with
  | nil => rfl
  | cons v vs ih =>
      simp only [List.map_cons, List.mem_cons] at h
      push_neg at h
      obtain ⟨h1, h2⟩ := h
      show dlookup k (vs.foldl loopStep (loopStep m v)) = dlookup k m
      rw [ih h2]
      cases hl : dlookup (toLowerL v) m with
      | none =>
          simp only [loopStep, hl]
          exact dlookup_dset_other m (toLowerL v) k (toLowerL v) h1
      | some w =>
          simp only [loopStep, hl]
          by_cases hw : pyIsUpper w = true
          · rw [if_pos hw]
            exact dlookup_dset_other m (toLowerL v) k (toLowerL v) h1
          · rw [if_neg hw]

theorem loopFold_char {vs : List (List Char)} {m : Dict} {k : List Char}
    (hmem : k ∈ vs.map toLowerL) (hid : ∀ v ∈ vs, IdentShaped v) :
    dlookup k (vs.foldl loopStep m) =
      (match dlookup k m with
       | none => some k
       | some w => if pyIsUpper w then some k else some w) := by
  induction vs generalizing m with
  | nil => simp at hmem
  | cons v vs ih =>
      have hvid : IdentShaped v := hid v (List.mem_cons_self v vs)
      have hrest : ∀ v' ∈ vs, IdentShaped v' :=
        fun v' hv' => hid v' (List.mem_cons_of_mem v hv')
      show dlookup k (vs.foldl loopStep (loopStep m v)) =
        (match dlookup k m with
         | none => some k
         | some w => if pyIsUpper w then some k else some w)
      by_cases hk : toLowerL v = k
      · subst hk
        have hlow : pyIsUpper (toLowerL v) = false := by
          obtain ⟨c, rest, hveq, hc, _⟩ := hvid
          rw [hveq]
          exact pyIsUpper_toLowerL_false c rest hc
        have hstep : dlookup (toLowerL v) (loopStep m v) =
            (match dlookup (toLowerL v) m with
             | none => some (toLowerL v)
             | some w => if pyIsUpper w then some (toLowerL v) else some w) := by
          cases hl : dlookup (toLowerL v) m with
          | none =>
              simp only [loopStep, hl]
              exact dlookup_dset_self m (toLowerL v) (toLowerL v)
          | some w =>
              simp only [loopStep, hl]
              by_cases hw : pyIsUpper w = true
              · rw [if_pos hw, if_pos hw]
                exact dlookup_dset_self m (toLowerL v) (toLowerL v)
              · rw [if_neg hw, if_neg hw]
                exact hl
        by_cases hmem2 : toLowerL v ∈ vs.map toLowerL
        · rw [ih hmem2 hrest, hstep]
          cases hl : dlookup (toLowerL v) m with
          | none => simp [hlow]
          | some w =>
              by_cases hw : pyIsUpper w = true
              · simp [hw, hlow]
              · have hw' : pyIsUpper w = false := by
                  rw [Bool.not_eq_true] at hw; exact hw
                simp [hw']
        · rw [loopFold_not_mem hmem2]
          exact hstep
      · have hpres : dlookup k (loopStep m v) = dlookup k m := by
          cases hl : dlookup (toLowerL v) m with
          | none =>
              simp only [loopStep, hl]
              exact dlookup_dset_other m (toLowerL v) k (toLowerL v)
                (fun he => hk he.symm)
          | some w =>
              simp only [loopStep, hl]
              by_cases hw : pyIsUpper w = true
              · rw [if_pos hw]
                exact dlookup_dset_other m (toLowerL v) k (toLowerL v)
                  (fun he => hk he.symm)
              · rw [if_neg hw]
        have hmem2 : k ∈ vs.map toLowerL := by
          simp only [List.map_cons, List.mem_cons] at hmem
          rcases hmem with hmem | hmem
          · exact absurd hmem.symm hk
          · exact hmem
        rw [ih hmem2 hrest, hpres]

/-- The canonical keys of all assignment-target lines of a text (the
lines matched by the external-global rule, in order). -/
def extTargets (text : List Char) : List (List Char) :=
  (splitLines text).filterMap
    (fun l => (assignTarget (strip_comment l)).map toLowerL)

theorem extFold_absent_target {lines : List (List Char)} {m : Dict}
    {k : List Char} (habs : dlookup k m = none)
    (hmem : k ∈ lines.filterMap
      (fun l => (assignTarget (strip_comment l)).map toLowerL)) :
    dlookup k (lines.foldl extStep m) = some (toUpperL k) := by
  induction lines generalizing m with
  | nil => simp at hmem
  | cons l ls ih =>
      show dlookup k (ls.foldl extStep (extStep m l)) = some (toUpperL k)
      cases ha : assignTarget (strip_comment l) with
      | none =>
          have hm2 : k ∈ ls.filterMap
              (fun l => (assignTarget (strip_comment l)).map toLowerL) := by
            simp only [List.filterMap_cons, ha] at hmem
            exact hmem
          have hstep : extStep m l = m := by simp only [extStep, ha]
          rw [hstep]
          exact ih habs hm2
      | some name =>
          by_cases hk : toLowerL name = k
          · have hset : extStep m l = dset m (toLowerL name) (toUpperL name) := by
              simp only [extStep, ha]
              rw [if_pos (by rw [hk, habs]; rfl)]
            have hup : toUpperL name = toUpperL k := by
              rw [← hk]
              exact (upper_of_lower_key name).symm ▸ rfl
            have hpres : dlookup k (extStep m l) = some (toUpperL k) := by
              rw [hset, ← hk]
              rw [show toUpperL name = toUpperL (toLowerL name) from
                upper_of_lower_key name] at hup ⊢
              rw [hk, ← hup, ← hk]
              exact dlookup_dset_self m (toLowerL name) (toUpperL (toLowerL name))
            exact predDict_foldl (fun d => dlookup k d = some (toUpperL k)) _ _ _
              (fun acc a hacc => extStep_preserves_present hacc) hpres
          · have hm2 : k ∈ ls.filterMap
                (fun l => (assignTarget (strip_comment l)).map toLowerL) := by
              simp only [List.filterMap_cons, ha, Option.map_some] at hmem
              rcases List.mem_cons.mp hmem with h | h
              · exact absurd h.symm hk
              · exact h
            have habs2 : dlookup k (extStep m l) = none := by
              simp only [extStep, ha]
              by_cases hl : (dlookup (toLowerL name) m).isNone = true
              · rw [if_pos hl]
                rw [dlookup_dset_other m (toLowerL name) k (toUpperL name)
                  (fun he => hk he.symm)]
                exact habs
              · rw [if_neg hl]
                exact habs
            exact ih habs2 hm2

theorem stageExternal_absent_target {text : List Char} {m : Dict}
    {k : List Char} (habs : dlookup k m = none) (hmem : k ∈ extTargets text) :
    dlookup k (stageExternal m text) = some (toUpperL k) := by
  unfold stageExternal
  exact extFold_absent_target habs hmem

/-! ### Claims C1, C2, C3 -/

/-- C1 (amended): a name declared as a pre-subprogram global and as a
non-constant local between `is` and `begin` ends up with its lowercase local
spelling, provided its canonical key does not also occur in the declarative
region's type-name map (which is merged after the local identifier map and
wins on collision). -/
theorem C1_local_overrides_global (text kw : List Char) (ps ip bp : Nat)
    (k : List Char)
    (h1 : find_first_subprogram text = some (kw, ps))
    (h2 : find_keyword_after text (sL "is") ps = some ip)
    (h3 : find_keyword_after text (sL "begin") ip = some bp)
    (h4 : dlookup k (collect_declarations (declLinesOf text ip bp) false).1 =
      some k)
    (h5 : dlookup k (collect_declarations (declLinesOf text ip bp) false).2 =
      none) :
    dlookup k (collect_subprogram_mapping text) = some k := by
  simp only [collect_subprogram_mapping, h1, h2, h3]
  apply stageExternal_preserves_present
  apply stageLoops_preserves_self
  show dlookup k (mapThroughLocals text ps ip bp) = some k
  unfold mapThroughLocals stageLocals
  rw [dlookup_dupdate _ _ _ (ndk_collect_declarations (declLinesOf text ip bp) false).2]
  rw [h5]
  rw [dlookup_dupdate _ _ _ (ndk_collect_declarations (declLinesOf text ip bp) false).1]
  rw [h4]

/-- Subprogram file of the specification's worked example 2. -/
def ex2 : List Char :=
  sL "procedure Proc (N : Integer) is\n   Total : Integer := 0;\nbegin\n   for I in 1 .. N loop\n      Total := Total + I;\n   end loop;\n   Count := Count + 1;\nend Proc;\n"

/-- Witness for C1: `total` is declared as a non-constant local of `ex2`
and ends up lowercase. -/
theorem C1_witness :
    find_first_subprogram ex2 = some (sL "procedure", 0) ∧
      find_keyword_after ex2 (sL "is") 0 = some 29 ∧
      find_keyword_after ex2 (sL "begin") 29 = some 57 ∧
      dlookup (sL "total")
        (collect_declarations (declLinesOf ex2 29 57) false).1 =
        some (sL "total") ∧
      dlookup (sL "total")
        (collect_declarations (declLinesOf ex2 29 57) false).2 = none ∧
      dlookup (sL "total") (collect_subprogram_mapping ex2) = some (sL "total") :=
  ⟨by decide, by decide, by decide, by decide, by decide,
    C1_local_overrides_global ex2 (sL "procedure") 0 29 57 (sL "total")
      (by decide) (by decide) (by decide) (by decide) (by decide)⟩

/-- File on which the claim C1, as stated, fails: `x` is declared as a
global and as a non-constant local, but also occurs in type position in the
declarative region (`Y : X;`), so the local type-name map restores the
uppercase spelling. -/
def exC1 : List Char :=
  sL "X : Integer := 0;\nprocedure P is\n   X : Integer := 0;\n   Y : X;\nbegin\n   null;\nend P;\n"

/-- C1 counterexample: in `exC1` the identifier `x` is declared before the
subprogram (global scan maps it to uppercase `X`) and as a non-constant
object between `is` and `begin` (local scan maps it to lowercase `x`), yet
the final mapping assigns it the uppercase spelling. -/
theorem C1_counterexample :
    dlookup (sL "x") (stageGlobals exC1 18) = some (sL "X") ∧
      find_first_subprogram exC1 = some (sL "procedure", 18) ∧
      find_keyword_after exC1 (sL "is") 18 = some 30 ∧
      find_keyword_after exC1 (sL "begin") 30 = some 64 ∧
      dlookup (sL "x")
        (collect_declarations (declLinesOf exC1 30 64) false).1 = some (sL "x") ∧
      dlookup (sL "x") (collect_subprogram_mapping exC1) = some (sL "X") ∧
      sL "X" ≠ sL "x" := by
  refine ⟨by decide, by decide, by decide, by decide, by decide, by decide, by decide⟩

/-- C2: for a canonical key `k` captured by some whole-text
`for <identifier> in` occurrence, the final mapping holds the lowercase
spelling exactly when `k` was absent from, or held an all-uppercase
spelling in, the mapping accumulated through the locals stage; a key held
with a non-all-uppercase spelling keeps that spelling. -/
theorem C2_loop_variable_demotion (text kw : List Char) (ps ip bp : Nat)
    (k : List Char)
    (h1 : find_first_subprogram text = some (kw, ps))
    (h2 : find_keyword_after text (sL "is") ps = some ip)
    (h3 : find_keyword_after text (sL "begin") ip = some bp)
    (h4 : k ∈ (findLoopVars (ncText text)).map toLowerL) :
    dlookup k (collect_subprogram_mapping text) =
      (match dlookup k (mapThroughLocals text ps ip bp) with
       | none => some k
       | some w => if pyIsUpper w then some k else some w) := by
  simp only [collect_subprogram_mapping, h1, h2, h3]
  have hloop : dlookup k (mapThroughLoops text ps ip bp) =
      (match dlookup k (mapThroughLocals text ps ip bp) with
       | none => some k
       | some w => if pyIsUpper w then some k else some w) := by
    unfold mapThroughLoops stageLoops
    exact loopFold_char h4 (fun v hv => findLoopVars_ident hv)
  cases hl : dlookup k (mapThroughLocals text ps ip bp) with
  | none =>
      simp only [hl] at hloop
      simp only [hl]
      exact stageExternal_preserves_present hloop
  | some w =>
      simp only [hl] at hloop
      simp only [hl]
      by_cases hw : pyIsUpper w = true
      · rw [if_pos hw] at hloop ⊢
        exact stageExternal_preserves_present hloop
      · rw [if_neg hw] at hloop ⊢
        exact stageExternal_preserves_present hloop

/-- Witness for C2: the loop variable `i` of `ex2` is absent from the
mapping through the locals stage and ends up lowercase. -/
theorem C2_witness :
    find_first_subprogram ex2 = some (sL "procedure", 0) ∧
      find_keyword_after ex2 (sL "is") 0 = some 29 ∧
      find_keyword_after ex2 (sL "begin") 29 = some 57 ∧
      sL "i" ∈ (findLoopVars (ncText ex2)).map toLowerL ∧
      dlookup (sL "i") (collect_subprogram_mapping ex2) =
        (match dlookup (sL "i") (mapThroughLocals ex2 0 29 57) with
         | none => some (sL "i")
         | some w => if pyIsUpper w then some (sL "i") else some w) :=
  ⟨by decide, by decide, by decide, by decide,
    C2_loop_variable_demotion ex2 (sL "procedure") 0 29 57 (sL "i")
      (by decide) (by decide) (by decide) (by decide)⟩

/-- C3: a line-initial `<identifier> :=` target whose canonical key is
absent after the loop-variable stage is assigned the fully uppercase
spelling, and a key already present at that point is left unchanged by the
external-global stage. -/
theorem C3_external_global_inference (text kw : List Char) (ps ip bp : Nat)
    (k : List Char)
    (h1 : find_first_subprogram text = some (kw, ps))
    (h2 : find_keyword_after text (sL "is") ps = some ip)
    (h3 : find_keyword_after text (sL "begin") ip = some bp) :
    (dlookup k (mapThroughLoops text ps ip bp) = none →
      k ∈ extTargets text →
      dlookup k (collect_subprogram_mapping text) = some (toUpperL k)) ∧
    (∀ w, dlookup k (mapThroughLoops text ps ip bp) = some w →
      dlookup k (collect_subprogram_mapping text) = some w) := by
  simp only [collect_subprogram_mapping, h1, h2, h3]
  constructor
  · intro habs hmem
    exact stageExternal_absent_target habs hmem
  · intro w hw
    exact stageExternal_preserves_present hw

/-- Witness for C3: `count` of `ex2` is only ever assigned, so it is
inferred as an external global and mapped to uppercase `COUNT`. -/
theorem C3_witness :
    find_first_subprogram ex2 = some (sL "procedure", 0) ∧
      find_keyword_after ex2 (sL "is") 0 = some 29 ∧
      find_keyword_after ex2 (sL "begin") 29 = some 57 ∧
      dlookup (sL "count") (mapThroughLoops ex2 0 29 57) = none ∧
      sL "count" ∈ extTargets ex2 ∧
      dlookup (sL "count") (collect_subprogram_mapping ex2) =
        some (toUpperL (sL "count")) :=
  ⟨by decide, by decide, by decide, by decide, by decide,
    (C3_external_global_inference ex2 (sL "procedure") 0 29 57 (sL "count")
      (by decide) (by decide) (by decide)).1 (by decide) (by decide)⟩

/-! ### Object-declaration lines (claims C5 and C10) -/

theorem mem_of_mem_dropWhile {p : Char → Bool} {c : Char} {cs : List Char}
    (h : c ∈ cs.dropWhile p) : c ∈ cs :=
  (List.dropWhile_sublist p (l := cs)).mem h

theorem mem_dropWhile_of_not {p : Char → Bool} {c : Char} {cs : List Char}
    (hm : c ∈ cs) (hc : p c = false) : cs.dropWhile p ≠ [] := by
  intro he
  have := List.dropWhile_eq_nil_iff.mp he c hm
  rw [hc] at this
  exact Bool.false_ne_true this

theorem stripB_ne_nil_of_mem {c : Char} {cs : List Char} (hm : c ∈ cs)
    (hc : isSpaceC c = false) : (stripB cs).isEmpty = false := by
  have h1 : c ∈ stripLft cs := by
    unfold stripLft
    induction cs with
    | nil => simp at hm
    | cons d ds ih =>
        by_cases hd : isSpaceC d = true
        · rw [List.dropWhile_cons_of_pos hd]
          rcases List.mem_cons.mp hm with h | h
          · rw [h] at hc; rw [hc] at hd; exact absurd hd (by simp)
          · exact ih h
        · rw [List.dropWhile_cons_of_neg hd]
          exact hm
  have h2 : stripRgt (stripLft cs) ≠ [] := by
    unfold stripRgt
    intro he
    have h3 : (stripLft cs).reverse.dropWhile isSpaceC = [] := by
      cases h4 : (stripLft cs).reverse.dropWhile isSpaceC with
      | nil => rfl
      | cons a l =>
          rw [h4] at he
          simp at he
    have := mem_dropWhile_of_not (List.mem_reverse.mpr h1) hc
    exact this h3
  unfold stripB
  cases h4 : stripRgt (stripLft cs) with
  | nil => exact absurd h4 h2
  | cons a l => rfl

theorem matchObjDecl_nonblank {code idPart rest : List Char}
    (h : matchObjDecl code = some (idPart, rest)) :
    (stripB code).isEmpty = false := by
  have hcolon : ':' ∈ code := by
    cases hd : code.dropWhile isObjClassC with
    | nil =>
        simp only [matchObjDecl, hd] at h
        exact Option.noConfusion h
    | cons c rest' =>
        simp only [matchObjDecl, hd] at h
        by_cases hc : c = ':'
        · rw [← hc]
          exact mem_of_mem_dropWhile (hd ▸ List.mem_cons_self c rest')
        · rw [if_neg hc] at h
          exact absurd h (by simp)
  exact stripB_ne_nil_of_mem hcolon (by decide)

theorem objDeclValue_congr {isConst mvu : Bool} {a b : List Char}
    (h : toLowerL a = toLowerL b) :
    objDeclValue isConst mvu a = objDeclValue isConst mvu b := by
  have hu : toUpperL a = toUpperL b := by
    rw [upper_of_lower_key a, upper_of_lower_key b, h]
  unfold objDeclValue
  rw [hu, h]

theorem objIdsFold_stable {isConst mvu : Bool} {ids : Dict}
    {parts : List (List Char)} {canon v : List Char}
    (hv : ∀ n, isIdentFull n = true → toLowerL n = canon →
      objDeclValue isConst mvu n = v)
    (h : dlookup canon ids = some v) :
    dlookup canon (objIdsFold isConst mvu ids parts) = some v := by
  unfold objIdsFold
  induction parts generalizing ids with
  | nil => exact h
  | cons idr ps ih =>
      simp only [List.foldl_cons]
      apply ih
      by_cases h1 : (stripB idr).isEmpty = true
      · rw [if_pos h1]; exact h
      · rw [if_neg h1]
        by_cases h2 : isIdentFull (stripB idr) = true
        · rw [h2]
          simp only [Bool.not_true, Bool.false_eq_true, if_false]
          by_cases h3 : toLowerL (stripB idr) = canon
          · rw [h3, hv (stripB idr) h2 h3]
            exact dlookup_dset_self ids canon v
          · rw [dlookup_dset_other ids (toLowerL (stripB idr)) canon _
              (fun he => h3 he.symm)]
            exact h
        · rw [Bool.not_eq_true] at h2
          rw [h2]
          simp only [Bool.not_false, if_true]
          exact h

theorem objIdsFold_lookup {isConst mvu : Bool} {ids : Dict}
    {parts : List (List Char)} {name : List Char}
    (hmem : name ∈ parts.map stripB) (hval : isIdentFull name = true) :
    dlookup (toLowerL name) (objIdsFold isConst mvu ids parts) =
      some (objDeclValue isConst mvu name) := by
  unfold objIdsFold
  induction parts generalizing ids with
  | nil => simp at hmem
  | cons idr ps ih =>
      simp only [List.foldl_cons]
      by_cases hmem2 : name ∈ ps.map stripB
      · exact ih hmem2
      · have hname : stripB idr = name := by
          simp only [List.map_cons, List.mem_cons] at hmem
          rcases hmem with h | h
          · exact h.symm
          · exact absurd h hmem2
        have hne : (stripB idr).isEmpty = false := by
          rw [hname]
          obtain ⟨c, rest, hre, _, _⟩ := isIdentFull_ident hval
          rw [hre]
          rfl
        have hval2 : isIdentFull (stripB idr) = true := by
          rw [hname]; exact hval
        rw [hne]
        simp only [Bool.false_eq_true, if_false]
        rw [hval2]
        simp only [Bool.not_true, Bool.false_eq_true, if_false]
        have hdset : dlookup (toLowerL name)
            (dset ids (toLowerL (stripB idr))
              (objDeclValue isConst mvu (stripB idr))) =
            some (objDeclValue isConst mvu name) := by
          rw [hname]
          exact dlookup_dset_self ids (toLowerL name) _
        have hstable := @objIdsFold_stable isConst mvu
          (dset ids (toLowerL (stripB idr))
            (objDeclValue isConst mvu (stripB idr)))
          ps (toLowerL name) (objDeclValue isConst mvu name)
          (fun n hn hcan => objDeclValue_congr hcan) hdset
        unfold objIdsFold at hstable
        exact hstable

/-- One object-declaration line's effect on the identifier map: each
trimmed, validated identifier of the comma list gets the constant/policy
casing. -/
theorem declStep_obj_lookup (mvu : Bool) (st : Dict × Dict)
    (raw idPart rest name : List Char)
    (ht : matchTypeDecl (stripRgt (strip_comment raw)) = none)
    (ho : matchObjDecl (stripRgt (strip_comment raw)) = some (idPart, rest))
    (hmem : name ∈ (splitOnC ',' idPart).map stripB)
    (hval : isIdentFull name = true) :
    dlookup (toLowerL name) (declStep mvu st raw).1 =
      some (objDeclValue (containsWordCI (sL "constant") false rest) mvu name) := by
  unfold declStep
  rw [if_neg (by rw [matchObjDecl_nonblank ho]; exact Bool.false_ne_true)]
  simp only [ht, ho]
  exact objIdsFold_lookup hmem hval

/-- C5: in `collect_declarations`, an object-declaration line whose
remainder after the colon contains the whole word `constant` assigns every
validated identifier of its comma list the fully uppercase spelling, and a
non-constant line assigns the policy default; and the worked example
`A, B : constant Float := 1.0;` in a package unit yields exactly
`a → A`, `b → B`, `float → FLOAT`. -/
theorem C5_constant_always_upper :
    (∀ (mvu : Bool) (st : Dict × Dict) (raw idPart rest name : List Char),
      matchTypeDecl (stripRgt (strip_comment raw)) = none →
      matchObjDecl (stripRgt (strip_comment raw)) = some (idPart, rest) →
      name ∈ (splitOnC ',' idPart).map stripB →
      isIdentFull name = true →
      dlookup (toLowerL name) (declStep mvu st raw).1 =
        some (if containsWordCI (sL "constant") false rest then toUpperL name
              else if mvu then toUpperL name
              else toLowerL name)) ∧
    collect_package_mapping
        (sL "package P is\n   A, B : constant Float := 1.0;\nend P;\n") =
      [(sL "a", sL "A"), (sL "b", sL "B"), (sL "float", sL "FLOAT")] := by
  constructor
  · intro mvu st raw idPart rest name ht ho hmem hval
    exact declStep_obj_lookup mvu st raw idPart rest name ht ho hmem hval
  · decide

/-- Witness for C5: the general half applied to the constant-declaration
line of the worked example, for both policies. -/
theorem C5_witness :
    dlookup (toLowerL (sL "A"))
        (declStep false ([], []) (sL "A, B : constant Float := 1.0;")).1 =
      some (sL "A") ∧
    dlookup (toLowerL (sL "A"))
        (declStep true ([], []) (sL "A, B : constant Float := 1.0;")).1 =
      some (sL "A") := by
  constructor
  · have h := C5_constant_always_upper.1 false ([], [])
      (sL "A, B : constant Float := 1.0;") (sL "A, B ")
      (sL " constant Float := 1.0;") (sL "A")
      (by decide) (by decide) (by decide) (by decide)
    rw [h]
    decide
  · have h := C5_constant_always_upper.1 true ([], [])
      (sL "A, B : constant Float := 1.0;") (sL "A, B ")
      (sL " constant Float := 1.0;") (sL "A")
      (by decide) (by decide) (by decide) (by decide)
    rw [h]
    decide

/-- C10 counterexample: `x := constant;` is an assignment-shaped line (no
declaration colon), yet under the lowercase-default policy its target is
mapped to uppercase `X`, not the scan's default casing, because the
text after the `:` of `:=` contains the whole word `constant`. -/
theorem C10_counterexample :
    matchObjDecl (stripRgt (strip_comment (sL "x := constant;"))) =
      some (sL "x ", sL "= constant;") ∧
    dlookup (sL "x") (collect_declarations [sL "x := constant;"] false).1 =
      some (sL "X") ∧
    sL "X" ≠ sL "x" := by
  refine ⟨by decide, by decide, by decide⟩

/-- C10 (amended): a scanned line of the shape `<identifier> := <expression>`
matches the object-declaration pattern with the `:` of `:=` as the
declaration colon, and the left-hand identifier is added with the scan's
default casing unless the remainder after that colon (`= <expression>`)
contains the whole word `constant`, in which case it is added uppercase; in
particular, under the package unit's uppercase policy every
assignment-statement target is mapped to uppercase. -/
theorem C10_assignment_target_mapped :
    ∀ (mvu : Bool) (st : Dict × Dict) (raw idPart rest' name : List Char),
      matchTypeDecl (stripRgt (strip_comment raw)) = none →
      matchObjDecl (stripRgt (strip_comment raw)) = some (idPart, '=' :: rest') →
      (splitOnC ',' idPart).map stripB = [name] →
      isIdentFull name = true →
      dlookup (toLowerL name) (declStep mvu st raw).1 =
        some (if containsWordCI (sL "constant") false ('=' :: rest') then
                toUpperL name
              else if mvu then toUpperL name
              else toLowerL name) ∧
      dlookup (toLowerL name) (declStep true st raw).1 = some (toUpperL name) := by
  intro mvu st raw idPart rest' name ht ho hsingle hval
  have hmem : name ∈ (splitOnC ',' idPart).map stripB := by
    rw [hsingle]
    exact List.mem_singleton.mpr rfl
  constructor
  · exact declStep_obj_lookup mvu st raw idPart ('=' :: rest') name ht ho hmem hval
  · rw [declStep_obj_lookup true st raw idPart ('=' :: rest') name ht ho hmem hval]
    rw [objDeclValue_upper]

/-- Witness for C10: the assignment statement `Count := Count + 1;` of the
worked example, under both policies. -/
theorem C10_witness :
    dlookup (toLowerL (sL "Count"))
        (declStep false ([], []) (sL "   Count := Count + 1;")).1 =
      some (sL "count") ∧
    dlookup (toLowerL (sL "Count"))
        (declStep true ([], []) (sL "   Count := Count + 1;")).1 =
      some (sL "COUNT") := by
  have h := C10_assignment_target_mapped false ([], [])
    (sL "   Count := Count + 1;") (sL "   Count ") (sL " Count + 1;")
    (sL "Count") (by decide) (by decide) (by decide) (by decide)
  constructor
  · rw [h.1]
    decide
  · rw [h.2]
    decide

/-! ### The maximal-run decomposition behind `apply_mapping` (claim C4) -/

/-- A nonempty run of characters of one word-class. -/
def ClassRun (b : Bool) (r : List Char) : Prop :=
  r ≠ [] ∧ ∀ c ∈ r, isWordC c = b

/-- Runs of alternating word-class; `ob` is the class of the preceding run,
if any. -/
def AltRuns : Option Bool → List (List Char) → Prop
  | _, [] => True
  | ob, r :: rs => ∃ b, ClassRun b r ∧ ob ≠ some b ∧ AltRuns (some b) rs

theorem splitRuns_cons (c : Char) (cs : List Char) :
    splitRuns (c :: cs) =
      (match splitRuns cs with
       | [] => [[c]]
       | r :: rs =>
           match r with
           | [] => [c] :: rs
           | d :: _ =>
               if isWordC c = isWordC d then (c :: r) :: rs
               else [c] :: r :: rs) := rfl

theorem join_splitRuns (cs : List Char) : (splitRuns cs).flatten = cs := by
  induction cs with
  | nil => rfl
  | cons c cs ih =>
      cases hs : splitRuns cs with
      | nil =>
          rw [hs] at ih
          simp only [List.flatten_nil] at ih
          simp only [splitRuns_cons, hs]
          simp [← ih]
      | cons r rs =>
          rw [hs] at ih
          cases r with
          | nil =>
              simp only [List.flatten_cons, List.nil_append] at ih
              simp only [splitRuns_cons, hs]
              simp [ih]
          | cons d r' =>
              simp only [splitRuns_cons, hs]
              by_cases hc : isWordC c = isWordC d
              · rw [if_pos hc]
                simp only [List.flatten_cons] at ih ⊢
                simp [ih]
              · rw [if_neg hc]
                simp only [List.flatten_cons] at ih ⊢
                simp [ih]

theorem splitRuns_spec (cs : List Char) :
    AltRuns none (splitRuns cs) ∧
      (∀ r rs, splitRuns cs = r :: rs → ∃ b, ClassRun b r ∧ AltRuns (some b) rs) := by
  have hgen : AltRuns none (splitRuns cs) ∧
      (∀ r rs, splitRuns cs = r :: rs → ∃ b, ClassRun b r ∧ AltRuns (some b) rs) := by
    induction cs with
    | nil => exact ⟨trivial, fun r rs h => absurd h (by simp [splitRuns])⟩
    | cons c cs ih =>
        obtain ⟨ih1, ih2⟩ := ih
        cases hs : splitRuns cs with
        | nil =>
            simp only [splitRuns_cons, hs]
            refine ⟨⟨isWordC c, ⟨by simp, ?_⟩, by simp, trivial⟩, ?_⟩
            · intro x hx
              rw [List.mem_singleton.mp hx]
            · intro r rs h
              injection h with h1 h2
              subst h1; subst h2
              exact ⟨isWordC c, ⟨by simp, fun x hx => by rw [List.mem_singleton.mp hx]⟩,
                trivial⟩
        | cons r rs =>
            obtain ⟨b, hr, hrs⟩ := ih2 r rs hs
            obtain ⟨hne, hcls⟩ := hr
            cases r with
            | nil => exact absurd rfl hne
            | cons d r' =>
                have hd : isWordC d = b := hcls d (List.mem_cons_self d r')
                simp only [splitRuns_cons, hs]
                by_cases hc : isWordC c = isWordC d
                · rw [if_pos hc]
                  have hcr : ClassRun b (c :: d :: r') := by
                    refine ⟨by simp, ?_⟩
                    intro x hx
                    rcases List.mem_cons.mp hx with h | h
                    · rw [h, hc, hd]
                    · exact hcls x h
                  refine ⟨⟨b, hcr, by simp, hrs⟩, ?_⟩
                  intro r2 rs2 h
                  injection h with h1 h2
                  subst h1; subst h2
                  exact ⟨b, hcr, hrs⟩
                · rw [if_neg hc]
                  have hcc : ClassRun (isWordC c) [c] :=
                    ⟨by simp, fun x hx => by rw [List.mem_singleton.mp hx]⟩
                  have hneq : (some (isWordC c) : Option Bool) ≠ some b := by
                    intro h
                    injection h with h'
                    rw [hd] at hc
                    exact hc h'
                  refine ⟨⟨isWordC c, hcc, by simp, b, ⟨by simp, hcls⟩, hneq, hrs⟩, ?_⟩
                  intro r2 rs2 h
                  injection h with h1 h2
                  subst h1; subst h2
                  exact ⟨isWordC c, hcc, b, ⟨by simp, hcls⟩, hneq, hrs⟩
  exact hgen

theorem altRuns_splitRuns (cs : List Char) : AltRuns none (splitRuns cs) :=
  (splitRuns_spec cs).1

theorem splitRuns_head_class {cs : List Char} {r : List Char}
    {rs : List (List Char)} (h : splitRuns cs = r :: rs) :
    ∃ b, ClassRun b r ∧ AltRuns (some b) rs :=
  (splitRuns_spec cs).2 r rs h

theorem splitRuns_eq_nil_iff (cs : List Char) : splitRuns cs = [] ↔ cs = [] := by
  constructor
  · intro h
    have := join_splitRuns cs
    rw [h] at this
    exact this.symm
  · intro h
    rw [h]
    rfl

theorem splitRuns_prepend {r t : List Char} {b : Bool} (hr : ClassRun b r)
    (ht : ∀ c, t.head? = some c → isWordC c ≠ b) :
    splitRuns (r ++ t) = r :: splitRuns t := by
  obtain ⟨hne, hcls⟩ := hr
  induction r with
  | nil => exact absurd rfl hne
  | cons c r' ih =>
      have hc : isWordC c = b := hcls c (List.mem_cons_self c r')
      cases r' with
      | nil =>
          simp only [List.cons_append, List.nil_append]
          cases hs : splitRuns t with
          | nil =>
              have : t = [] := (splitRuns_eq_nil_iff t).mp hs
              subst this
              simp [splitRuns_cons, hs]
          | cons r2 rs2 =>
              obtain ⟨b2, ⟨hne2, hcls2⟩, _⟩ := splitRuns_head_class hs
              cases r2 with
              | nil => exact absurd rfl hne2
              | cons d r2' =>
                  have hd : isWordC d = b2 := hcls2 d (List.mem_cons_self d r2')
                  have hdt : t.head? = some d := by
                    have := join_splitRuns t
                    rw [hs] at this
                    rw [← this]
                    rfl
                  have hbb : isWordC d ≠ b := ht d hdt
                  simp only [splitRuns_cons, hs]
                  rw [if_neg (by rw [hc]; exact fun he => hbb he.symm)]
      | cons c2 r'' =>
          have hcr' : ClassRun b (c2 :: r'') :=
            ⟨by simp, fun x hx => hcls x (List.mem_cons_of_mem c hx)⟩
          have ih2 := ih (by simp) (fun x hx => hcls x (List.mem_cons_of_mem c hx))
          show splitRuns (c :: ((c2 :: r'') ++ t)) = (c :: c2 :: r'') :: splitRuns t
          simp only [splitRuns_cons, ih2]
          have hc2 : isWordC c2 = b := hcls c2 (by simp)
          rw [if_pos (by rw [hc, hc2])]

theorem flatten_of_altRuns {rs : List (List Char)} {ob : Option Bool}
    (h : AltRuns ob rs) : splitRuns rs.flatten = rs := by
  induction rs generalizing ob with
  | nil => rfl
  | cons r rs' ih =>
      obtain ⟨b, hr, hob, hrs'⟩ := h
      simp only [List.flatten_cons]
      rw [splitRuns_prepend hr ?_, ih hrs']
      intro c hc
      cases rs' with
      | nil => simp at hc
      | cons r2 rs2 =>
          obtain ⟨b2, ⟨hne2, hcls2⟩, hob2, _⟩ := hrs'
          cases r2 with
          | nil => exact absurd rfl hne2
          | cons d r2' =>
              simp only [List.flatten_cons, List.cons_append, List.head?_cons,
                Option.some.injEq] at hc
              rw [← hc]
              have hd : isWordC d = b2 := hcls2 d (List.mem_cons_self d r2')
              rw [hd]
              intro he
              exact hob2 (by rw [he])

theorem altRuns_map {g : List Char → List Char}
    (hg : ∀ b r, ClassRun b r → ClassRun b (g r)) :
    ∀ {ob : Option Bool} {rs : List (List Char)}, AltRuns ob rs →
      AltRuns ob (rs.map g) := by
  intro ob rs
  induction rs generalizing ob with
  | nil => intro h; exact h
  | cons r rs' ih =>
      intro h
      obtain ⟨b, hr, hob, hrs'⟩ := h
      exact ⟨b, hg b r hr, hob, ih hrs'⟩

theorem classRun_repTok {key val : List Char} (hkey : key ≠ [])
    (hkw : ∀ c ∈ key, isWordC c = true) (hval : toLowerL val = key)
    {b : Bool} {r : List Char} (hr : ClassRun b r) :
    ClassRun b (repTok key val r) := by
  unfold repTok
  by_cases ht : toLowerL r = key
  · rw [if_pos ht]
    obtain ⟨hne, hcls⟩ := hr
    have hb : b = true := by
      cases r with
      | nil => exact absurd rfl hne
      | cons c r' =>
          have h1 : isWordC c = b := hcls c (List.mem_cons_self c r')
          have h2 : lowerC c ∈ key := by
            rw [← ht]
            exact List.mem_map_of_mem lowerC (List.mem_cons_self c r')
          have h3 : isWordC (lowerC c) = true := hkw (lowerC c) h2
          rw [isWordC_lowerC] at h3
          rw [← h1, h3]
    subst hb
    constructor
    · intro hv
      rw [hv] at hval
      exact hkey hval.symm
    · intro c hc
      have h2 : lowerC c ∈ key := by
        rw [← hval]
        exact List.mem_map_of_mem lowerC hc
      have h3 := hkw (lowerC c) h2
      rw [isWordC_lowerC] at h3
      exact h3
  · rw [if_neg ht]
    exact hr

/-- Token-level view of one whole-word substitution pass. -/
theorem replaceWord_flatten {key val : List Char} {rs : List (List Char)}
    (hkey : key ≠ []) (hkw : ∀ c ∈ key, isWordC c = true)
    (hval : toLowerL val = key) (h : AltRuns none rs) :
    replaceWord key val rs.flatten = (rs.map (repTok key val)).flatten := by
  unfold replaceWord
  rw [flatten_of_altRuns h]

/-- Sequential replacement of one token by all mapping entries, in order. -/
def foldTok (es : Dict) (tok : List Char) : List Char :=
  es.foldl (fun t p => repTok p.1 p.2 t) tok

theorem apply_fold_factor (es : Dict)
    (hm : ∀ p ∈ es, p.1 ≠ [] ∧ (∀ c ∈ p.1, isWordC c = true) ∧
      toLowerL p.2 = p.1) :
    ∀ rs : List (List Char), AltRuns none rs →
      es.foldl (fun acc p => replaceWord p.1 p.2 acc) rs.flatten =
        (rs.map (foldTok es)).flatten := by
  induction es with
  | nil =>
      intro rs h
      simp only [List.foldl_nil]
      have : rs.map (foldTok []) = rs := by
        apply List.map_id''
        intro r
        rfl
      rw [this]
  | cons p es' ih =>
      intro rs h
      obtain ⟨h1, h2, h3⟩ := hm p (List.mem_cons_self p es')
      have hm' : ∀ q ∈ es', q.1 ≠ [] ∧ (∀ c ∈ q.1, isWordC c = true) ∧
          toLowerL q.2 = q.1 :=
        fun q hq => hm q (List.mem_cons_of_mem p hq)
      simp only [List.foldl_cons]
      rw [replaceWord_flatten h1 h2 h3 h]
      rw [ih hm' (rs.map (repTok p.1 p.2))
        (altRuns_map (fun b r hr => classRun_repTok h1 h2 h3 hr) h)]
      rw [List.map_map]
      rfl

theorem foldTok_char (es : Dict) (hnd : NoDupKeys es)
    (hm : ∀ p ∈ es, p.1 ≠ [] ∧ (∀ c ∈ p.1, isWordC c = true) ∧
      toLowerL p.2 = p.1) (tok : List Char) :
    foldTok es tok =
      (match dlookup (toLowerL tok) es with
       | some v => v
       | none => tok) := by
  induction es generalizing tok with
  | nil => rfl
  | cons p es' ih =>
      obtain ⟨k, v⟩ := p
      obtain ⟨h1, h2, h3⟩ := hm (k, v) (List.mem_cons_self (k, v) es')
      simp only [NoDupKeys, List.map_cons, List.nodup_cons] at hnd
      obtain ⟨hk, hnd'⟩ := hnd
      have hm' : ∀ q ∈ es', q.1 ≠ [] ∧ (∀ c ∈ q.1, isWordC c = true) ∧
          toLowerL q.2 = q.1 :=
        fun q hq => hm q (List.mem_cons_of_mem (k, v) hq)
      show foldTok es' (repTok k v tok) = _
      by_cases ht : toLowerL tok = k
      · unfold repTok
        rw [if_pos ht]
        rw [ih hnd' hm' v]
        have hnone : dlookup (toLowerL v) es' = none := by
          apply (dlookup_eq_none_iff _ _).mpr
          rw [h3]
          exact hk
        rw [hnone]
        have hsome : dlookup (toLowerL tok) ((k, v) :: es') = some v := by
          show (if k = toLowerL tok then some v else dlookup (toLowerL tok) es') = some v
          rw [if_pos ht.symm]
        rw [hsome]
      · unfold repTok
        rw [if_neg ht]
        rw [ih hnd' hm' tok]
        have hskip : dlookup (toLowerL tok) ((k, v) :: es') =
            dlookup (toLowerL tok) es' := by
          show (if k = toLowerL tok then some v else dlookup (toLowerL tok) es') = _
          rw [if_neg (fun he => ht he.symm)]
        rw [hskip]

theorem insertDesc_perm (p : List Char × List Char) (l : Dict) :
    (insertDesc p l).Perm (p :: l) := by
  induction l with
  | nil => exact List.Perm.refl _
  | cons q qs ih =>
      show (if q.1.length ≤ p.1.length then p :: q :: qs
        else q :: insertDesc p qs).Perm (p :: q :: qs)
      by_cases h : q.1.length ≤ p.1.length
      · rw [if_pos h]
      · rw [if_neg h]
        exact (ih.cons q).trans (List.Perm.swap p q qs)

theorem sortDescLen_perm (m : Dict) : (sortDescLen m).Perm m := by
  induction m with
  | nil => exact List.Perm.refl _
  | cons p ps ih =>
      show (insertDesc p (sortDescLen ps)).Perm (p :: ps)
      exact (insertDesc_perm p (sortDescLen ps)).trans (ih.cons p)

theorem dlookup_some_iff_mem {m : Dict} (hnd : NoDupKeys m)
    (k v : List Char) : dlookup k m = some v ↔ (k, v) ∈ m := by
  induction m with
  | nil => simp [dlookup]
  | cons p ps ih =>
      obtain ⟨a, b⟩ := p
      simp only [NoDupKeys, List.map_cons, List.nodup_cons] at hnd
      obtain ⟨ha, hnd'⟩ := hnd
      rw [List.mem_cons]
      show (if a = k then some b else dlookup k ps) = some v ↔
        (k, v) = (a, b) ∨ (k, v) ∈ ps
      by_cases hk : a = k
      · subst hk
        rw [if_pos rfl]
        constructor
        · intro h
          left
          rw [Option.some.injEq] at h
          rw [h]
        · rintro (h | h)
          · rw [Option.some.injEq]
            exact (congrArg Prod.snd h).symm
          · exact absurd (List.mem_map_of_mem Prod.fst h) ha
      · rw [if_neg hk]
        rw [ih hnd']
        constructor
        · intro h; right; exact h
        · rintro (h | h)
          · exact absurd (congrArg Prod.fst h).symm hk
          · exact h

theorem dlookup_perm {l l' : Dict} (hnd : NoDupKeys l) (hp : l.Perm l')
    (k : List Char) : dlookup k l = dlookup k l' := by
  have hnd' : NoDupKeys l' := ((hp.map Prod.fst).nodup_iff).mp hnd
  cases h : dlookup k l with
  | none =>
      rw [dlookup_eq_none_iff] at h
      have h2 : k ∉ l'.map Prod.fst := fun hc =>
        h ((hp.map Prod.fst).mem_iff.mpr hc)
      exact ((dlookup_eq_none_iff k l').mpr h2).symm
  | some v =>
      rw [dlookup_some_iff_mem hnd] at h
      exact ((dlookup_some_iff_mem hnd' k v).mpr (hp.mem_iff.mp h)).symm

/-- The net effect of `apply_mapping` for a canonical mapping (keys are
nonempty word-character strings, every value case-folds back to its key,
keys distinct): each maximal word run that case-folds to a key is replaced
by that key's assigned spelling and everything else is untouched. -/
theorem apply_mapping_eq (text : List Char) (m : Dict) (hnd : NoDupKeys m)
    (hm : ∀ p ∈ m, p.1 ≠ [] ∧ (∀ c ∈ p.1, isWordC c = true) ∧
      toLowerL p.2 = p.1) :
    apply_mapping text m =
      ((splitRuns text).map
        (fun tok =>
          match dlookup (toLowerL tok) m with
          | some v => v
          | none => tok)).flatten := by
  unfold apply_mapping
  by_cases he : m.isEmpty = true
  · rw [if_pos he]
    have hm0 : m = [] := by
      cases m with
      | nil => rfl
      | cons p ps => simp [List.isEmpty] at he
    subst hm0
    have : (splitRuns text).map
        (fun tok =>
          match dlookup (toLowerL tok) ([] : Dict) with
          | some v => v
          | none => tok) = splitRuns text := by
      apply List.map_id''
      intro r
      rfl
    rw [this, join_splitRuns]
  · rw [if_neg he]
    have hperm := sortDescLen_perm m
    have hnds : NoDupKeys (sortDescLen m) :=
      ((hperm.map Prod.fst).nodup_iff).mpr hnd
    have hms : ∀ p ∈ sortDescLen m, p.1 ≠ [] ∧ (∀ c ∈ p.1, isWordC c = true) ∧
        toLowerL p.2 = p.1 :=
      fun p hp => hm p (hperm.mem_iff.mp hp)
    have h1 : (sortDescLen m).foldl (fun acc p => replaceWord p.1 p.2 acc)
        ((splitRuns text).flatten) =
        ((splitRuns text).map (foldTok (sortDescLen m))).flatten :=
      apply_fold_factor (sortDescLen m) hms (splitRuns text) (altRuns_splitRuns text)
    rw [join_splitRuns] at h1
    rw [h1]
    congr 1
    apply List.map_congr_left
    intro tok htok
    rw [foldTok_char (sortDescLen m) hnds hms tok]
    rw [dlookup_perm hnds hperm (toLowerL tok)]

/-- C4 is refuted as stated: `apply_mapping` substitutes sequentially on the
result of the previous substitution, so the replacement text produced for one
key can itself match a later key. On the text "ab" with the mapping
{"ab" ↦ "xy", "xy" ↦ "Q"}, a single whole-word pass over the original text
would produce "xy", but `apply_mapping` produces "Q". -/
theorem C4_counterexample :
    apply_mapping (sL "ab") [(sL "ab", sL "xy"), (sL "xy", sL "Q")] = sL "Q" ∧
    ((splitRuns (sL "ab")).map
      (fun tok =>
        match dlookup (toLowerL tok) [(sL "ab", sL "xy"), (sL "xy", sL "Q")] with
        | some v => v
        | none => tok)).flatten = sL "xy" ∧
    sL "Q" ≠ sL "xy" := by
  refine ⟨by decide, by decide, by decide⟩

/-- C4 (amended): for a canonical mapping — keys pairwise distinct, each key a
nonempty string of word characters, and each assigned spelling case-folding
back to its key (which holds for every mapping the collectors build) —
`apply_mapping` acts exactly word-by-word on the original text: the text
splits into maximal runs of word/non-word characters whose concatenation is
the text itself, every run whose lowercase form is a key is replaced by that
key's assigned spelling, and every other run (in particular every larger
identifier containing a key only as a proper substring, and all non-word
text) is left unchanged. -/
theorem C4_word_boundary_replacement (text : List Char) (m : Dict)
    (hnd : NoDupKeys m)
    (hm : ∀ p ∈ m, p.1 ≠ [] ∧ (∀ c ∈ p.1, isWordC c = true) ∧
      toLowerL p.2 = p.1) :
    (splitRuns text).flatten = text ∧
    apply_mapping text m =
      ((splitRuns text).map
        (fun tok =>
          match dlookup (toLowerL tok) m with
          | some v => v
          | none => tok)).flatten :=
  ⟨join_splitRuns text, apply_mapping_eq text m hnd hm⟩

/-- Witness for C4: on "cnt recount" with the canonical mapping
{"cnt" ↦ "CNT"}, the run decomposition applies, the standalone word "cnt" is
uppercased, and "recount" — which contains "cnt" only as a proper
substring — is untouched. -/
theorem C4_witness :
    apply_mapping (sL "cnt recount") [(sL "cnt", sL "CNT")] = sL "CNT recount" ∧
    apply_mapping (sL "cnt recount") [(sL "cnt", sL "CNT")] =
      ((splitRuns (sL "cnt recount")).map
        (fun tok =>
          match dlookup (toLowerL tok) [(sL "cnt", sL "CNT")] with
          | some v => v
          | none => tok)).flatten :=
  ⟨by decide,
   (C4_word_boundary_replacement (sL "cnt recount") [(sL "cnt", sL "CNT")]
     (by unfold NoDupKeys; decide) (by decide)).2⟩

theorem searchWord_sound (kw : List Char) :
    ∀ (cs : List Char) (prevW : Bool) (i j : Nat),
      searchWord kw prevW i cs = some j →
      ∃ d, j = i + d ∧ wordAt kw (cs.drop d) = true := by
  intro cs
  induction cs with
  | nil =>
      intro prevW i j h
      exact absurd h (by simp [searchWord])
  | cons c cs ih =>
      intro prevW i j h
      by_cases hc : (!prevW && wordAt kw (c :: cs)) = true
      · have h' : some i = some j := by
          simpa only [searchWord, if_pos hc] using h
        refine ⟨0, ?_, ?_⟩
        · rw [Option.some.injEq] at h'
          omega
        · exact (Bool.and_eq_true _ _ |>.mp hc).2
      · have h' : searchWord kw (isWordC c) (i + 1) cs = some j := by
          simpa only [searchWord, if_neg hc] using h
        obtain ⟨d, hd, hw⟩ := ih (isWordC c) (i + 1) j h'
        refine ⟨d + 1, by omega, ?_⟩
        rw [List.drop_succ_cons]
        exact hw

theorem searchPF_sound :
    ∀ (cs : List Char) (prevW : Bool) (i : Nat) (kw : List Char) (j : Nat),
      searchPF prevW i cs = some (kw, j) →
      ∃ d, j = i + d ∧ wordAt kw (cs.drop d) = true ∧
        (kw = sL "procedure" ∨ kw = sL "function") := by
  intro cs
  induction cs with
  | nil =>
      intro prevW i kw j h
      exact absurd h (by simp [searchPF])
  | cons c cs ih =>
      intro prevW i kw j h
      by_cases h1 : (!prevW && wordAt (sL "procedure") (c :: cs)) = true
      · have h' : some (sL "procedure", i) = some (kw, j) := by
          simpa only [searchPF, if_pos h1] using h
        rw [Option.some.injEq, Prod.mk.injEq] at h'
        refine ⟨0, by omega, ?_, Or.inl h'.1.symm⟩
        rw [List.drop_zero, ← h'.1]
        exact (Bool.and_eq_true _ _ |>.mp h1).2
      · by_cases h2 : (!prevW && wordAt (sL "function") (c :: cs)) = true
        · have h' : some (sL "function", i) = some (kw, j) := by
            simpa only [searchPF, if_neg h1, if_pos h2] using h
          rw [Option.some.injEq, Prod.mk.injEq] at h'
          refine ⟨0, by omega, ?_, Or.inr h'.1.symm⟩
          rw [List.drop_zero, ← h'.1]
          exact (Bool.and_eq_true _ _ |>.mp h2).2
        · have h' : searchPF (isWordC c) (i + 1) cs = some (kw, j) := by
            simpa only [searchPF, if_neg h1, if_neg h2] using h
          obtain ⟨d, hd, hw, hor⟩ := ih (isWordC c) (i + 1) kw j h'
          refine ⟨d + 1, by omega, ?_, hor⟩
          rw [List.drop_succ_cons]
          exact hw

theorem ffsGo_sound :
    ∀ (ls : List (List Char)) (off : Nat) (kw : List Char) (p : Nat),
      ffsGo ls off = some (kw, p) →
      ∃ ls1 l ls2 i, ls = ls1 ++ l :: ls2 ∧
        (∀ l2 ∈ ls1, searchPF false 0 (strip_comment l2) = none) ∧
        searchPF false 0 (strip_comment l) = some (kw, i) ∧
        p = off + (ls1.map List.length).sum + i := by
  intro ls
  induction ls with
  | nil =>
      intro off kw p h
      exact absurd h (by simp [ffsGo])
  | cons l ls ih =>
      intro off kw p h
      cases hs : searchPF false 0 (strip_comment l) with
      | some r =>
          obtain ⟨kw0, i0⟩ := r
          have h' : some (kw0, off + i0) = some (kw, p) := by
            simpa only [ffsGo, hs] using h
          rw [Option.some.injEq, Prod.mk.injEq] at h'
          refine ⟨[], l, ls, i0, rfl, ?_, ?_, ?_⟩
          · intro l2 h2
            cases h2
          · rw [hs, h'.1]
          · simp only [List.map_nil, List.sum_nil]
            omega
      | none =>
          have h' : ffsGo ls (off + l.length) = some (kw, p) := by
            simpa only [ffsGo, hs] using h
          obtain ⟨ls1, l0, ls2, i, heq, hall, hsp, hp⟩ :=
            ih (off + l.length) kw p h'
          refine ⟨l :: ls1, l0, ls2, i, ?_, ?_, hsp, ?_⟩
          · rw [heq]
            rfl
          · intro l2 h2
            rcases List.mem_cons.mp h2 with h2 | h2
            · rw [h2]; exact hs
            · exact hall l2 h2
          · simp only [List.map_cons, List.sum_cons]
            omega

/-- C6 (amended): the Boundary Locator finds `procedure`/`function` in the
comment-stripped lines — every earlier line's stripped text has no match and
the recorded offset is the sum of the full lengths of the earlier lines plus
the whole-word match index inside the stripped line — but `is` and `begin`
are then searched in the RAW original text from the previous offset, as
genuine whole-word occurrences there (so an `is`/`begin` inside a line
comment can be selected, contrary to the claim). -/
theorem C6_boundary_markers (text kw : List Char) (p ip bp : Nat)
    (h1 : find_first_subprogram text = some (kw, p))
    (h2 : find_keyword_after text (sL "is") p = some ip)
    (h3 : find_keyword_after text (sL "begin") ip = some bp) :
    (∃ ls1 l ls2 i,
        splitLinesKeep text = ls1 ++ l :: ls2 ∧
        (∀ l2 ∈ ls1, searchPF false 0 (strip_comment l2) = none) ∧
        wordAt kw (List.drop i (strip_comment l)) = true ∧
        (kw = sL "procedure" ∨ kw = sL "function") ∧
        p = (ls1.map List.length).sum + i) ∧
    p ≤ ip ∧ wordAt (sL "is") (text.drop ip) = true ∧
    ip ≤ bp ∧ wordAt (sL "begin") (text.drop bp) = true := by
  have hffs : ffsGo (splitLinesKeep text) 0 = some (kw, p) := h1
  obtain ⟨ls1, l, ls2, i, heq, hall, hsp, hp⟩ := ffsGo_sound _ 0 kw p hffs
  obtain ⟨d, hd, hw, hor⟩ := searchPF_sound _ false 0 kw i hsp
  have hdi : d = i := by omega
  subst hdi
  obtain ⟨j2, hj2, hip⟩ := Option.map_eq_some'.mp h2
  obtain ⟨d2, hd2, hw2⟩ := searchWord_sound _ _ false 0 j2 hj2
  obtain ⟨j3, hj3, hbp⟩ := Option.map_eq_some'.mp h3
  obtain ⟨d3, hd3, hw3⟩ := searchWord_sound _ _ false 0 j3 hj3
  refine ⟨⟨ls1, l, ls2, d, heq, hall, hw, hor, by omega⟩, ?_, ?_, ?_, ?_⟩
  · omega
  · have : (text.drop p).drop d2 = text.drop ip := by
      rw [List.drop_drop]
      congr 1
      omega
    rw [← this]
    exact hw2
  · omega
  · have : (text.drop ip).drop d3 = text.drop bp := by
      rw [List.drop_drop]
      congr 1
      omega
    rw [← this]
    exact hw3

/-- File on which C6, as stated, fails: the only whole-word `is` lies inside
the line comment of the first line. -/
def exC6 : List Char := sL "procedure P -- is\nbegin\nend;\n"

/-- C6 is refuted as stated: on `exC6` the locator picks the `is` at offset
15, inside the line comment `-- is` (a genuine whole-word occurrence in the
raw text), even though the comment-stripped text contains no whole-word `is`
at all. -/
theorem C6_counterexample :
    find_first_subprogram exC6 = some (sL "procedure", 0) ∧
    find_keyword_after exC6 (sL "is") 0 = some 15 ∧
    wordAt (sL "is") (exC6.drop 15) = true ∧
    containsWordCI (sL "is") false (ncText exC6) = false := by
  refine ⟨by decide, by decide, by decide, by decide⟩

/-- Witness for C6 on the spec's subprogram example: the subprogram keyword
is located in the comment-stripped first line at offset 0, and `is`/`begin`
are found as whole words in the raw text at offsets 29 and 57. -/
theorem C6_witness :
    (∃ ls1 l ls2 i,
        splitLinesKeep ex2 = ls1 ++ l :: ls2 ∧
        (∀ l2 ∈ ls1, searchPF false 0 (strip_comment l2) = none) ∧
        wordAt (sL "procedure") (List.drop i (strip_comment l)) = true ∧
        (sL "procedure" = sL "procedure" ∨ sL "procedure" = sL "function") ∧
        0 = (ls1.map List.length).sum + i) ∧
    0 ≤ 29 ∧ wordAt (sL "is") (ex2.drop 29) = true ∧
    29 ≤ 57 ∧ wordAt (sL "begin") (ex2.drop 57) = true :=
  C6_boundary_markers ex2 (sL "procedure") 0 29 57
    (by decide) (by decide) (by decide)

/-! ### Lowercase-invariance of the scanners

Every scan the program performs is case-insensitive, and every value it
stores is the lowercase or uppercase form of the scanned name, so the whole
mapping construction factors through `toLowerL`. -/

theorem head_toLowerL (t : List Char) :
    (toLowerL t).head? = t.head?.map lowerC := by
  cases t <;> rfl

theorem isEmpty_toLowerL (t : List Char) :
    (toLowerL t).isEmpty = t.isEmpty := by
  cases t <;> rfl

theorem dropWhile_toLowerL (p : Char → Bool) (hp : ∀ c, p (lowerC c) = p c)
    (t : List Char) : (toLowerL t).dropWhile p = toLowerL (t.dropWhile p) := by
  induction t with
  | nil => rfl
  | cons c cs ih =>
      show List.dropWhile p (lowerC c :: toLowerL cs) = _
      rw [List.dropWhile_cons, List.dropWhile_cons, hp c]
      by_cases h : p c = true
      · rw [if_pos h, if_pos h]
        exact ih
      · rw [if_neg h, if_neg h]
        rfl

theorem takeWhile_toLowerL (p : Char → Bool) (hp : ∀ c, p (lowerC c) = p c)
    (t : List Char) : (toLowerL t).takeWhile p = toLowerL (t.takeWhile p) := by
  induction t with
  | nil => rfl
  | cons c cs ih =>
      show List.takeWhile p (lowerC c :: toLowerL cs) = _
      rw [List.takeWhile_cons, List.takeWhile_cons, hp c]
      by_cases h : p c = true
      · rw [if_pos h, if_pos h]
        show lowerC c :: (toLowerL cs).takeWhile p = toLowerL (c :: cs.takeWhile p)
        rw [ih]
        rfl
      · rw [if_neg h, if_neg h]
        rfl

theorem reverse_toLowerL (t : List Char) :
    (toLowerL t).reverse = toLowerL t.reverse := by
  simp [toLowerL]

theorem stripLft_toLowerL (t : List Char) :
    stripLft (toLowerL t) = toLowerL (stripLft t) :=
  dropWhile_toLowerL isSpaceC isSpaceC_lowerC t

theorem stripRgt_toLowerL (t : List Char) :
    stripRgt (toLowerL t) = toLowerL (stripRgt t) := by
  unfold stripRgt
  rw [reverse_toLowerL, dropWhile_toLowerL isSpaceC isSpaceC_lowerC,
    reverse_toLowerL]

theorem stripB_toLowerL (t : List Char) :
    stripB (toLowerL t) = toLowerL (stripB t) := by
  unfold stripB
  rw [stripLft_toLowerL, stripRgt_toLowerL]

theorem strip_comment_toLowerL (t : List Char) :
    strip_comment (toLowerL t) = toLowerL (strip_comment t) := by
  induction t with
  | nil => rfl
  | cons c cs ih =>
      have hcond : (lowerC c = '-' ∧ (toLowerL cs).head? = some '-') ↔
          (c = '-' ∧ cs.head? = some '-') := by
        rw [lowerC_eq_nonletter_iff c '-' (by decide), head_toLowerL]
        constructor
        · rintro ⟨h1, h2⟩
          refine ⟨h1, ?_⟩
          cases hh : cs.head? with
          | none => rw [hh] at h2; exact absurd h2 (by simp)
          | some d =>
              rw [hh, Option.map_some', Option.some.injEq] at h2
              rw [(lowerC_eq_nonletter_iff d '-' (by decide)).mp h2]
        · rintro ⟨h1, h2⟩
          refine ⟨h1, ?_⟩
          rw [h2]
          rfl
      show (if lowerC c = '-' ∧ (toLowerL cs).head? = some '-' then []
        else lowerC c :: strip_comment (toLowerL cs)) =
        toLowerL (if c = '-' ∧ cs.head? = some '-' then []
          else c :: strip_comment cs)
      by_cases h : c = '-' ∧ cs.head? = some '-'
      · rw [if_pos (hcond.mpr h), if_pos h]
        rfl
      · rw [if_neg (fun hc => h (hcond.mp hc)), if_neg h]
        show lowerC c :: strip_comment (toLowerL cs) =
          lowerC c :: toLowerL (strip_comment cs)
        rw [ih]

theorem splitLines_toLowerL (t : List Char) :
    splitLines (toLowerL t) = (splitLines t).map toLowerL := by
  induction t with
  | nil => rfl
  | cons c cs ih =>
      have hL : splitLines (toLowerL (c :: cs)) =
          (if lowerC c = '\n' then [] :: splitLines (toLowerL cs)
           else
             match splitLines (toLowerL cs) with
             | [] => [[lowerC c]]
             | l :: ls => (lowerC c :: l) :: ls) := rfl
      have hR : splitLines (c :: cs) =
          (if c = '\n' then [] :: splitLines cs
           else
             match splitLines cs with
             | [] => [[c]]
             | l :: ls => (c :: l) :: ls) := rfl
      rw [hL, hR, ih]
      by_cases h : c = '\n'
      · rw [if_pos ((lowerC_eq_nonletter_iff c '\n' (by decide)).mpr h),
          if_pos h]
        rfl
      · rw [if_neg (fun hc => h ((lowerC_eq_nonletter_iff c '\n' (by decide)).mp hc)),
          if_neg h]
        cases hs : splitLines cs with
        | nil => rfl
        | cons l ls => rfl

theorem splitLinesKeep_toLowerL (t : List Char) :
    splitLinesKeep (toLowerL t) = (splitLinesKeep t).map toLowerL := by
  induction t with
  | nil => rfl
  | cons c cs ih =>
      have hL : splitLinesKeep (toLowerL (c :: cs)) =
          (if lowerC c = '\n' then [lowerC c] :: splitLinesKeep (toLowerL cs)
           else
             match splitLinesKeep (toLowerL cs) with
             | [] => [[lowerC c]]
             | l :: ls => (lowerC c :: l) :: ls) := rfl
      have hR : splitLinesKeep (c :: cs) =
          (if c = '\n' then [c] :: splitLinesKeep cs
           else
             match splitLinesKeep cs with
             | [] => [[c]]
             | l :: ls => (c :: l) :: ls) := rfl
      rw [hL, hR, ih]
      by_cases h : c = '\n'
      · rw [if_pos ((lowerC_eq_nonletter_iff c '\n' (by decide)).mpr h),
          if_pos h]
        rw [h]
        rfl
      · rw [if_neg (fun hc => h ((lowerC_eq_nonletter_iff c '\n' (by decide)).mp hc)),
          if_neg h]
        cases hs : splitLinesKeep cs with
        | nil => rfl
        | cons l ls => rfl

theorem splitOnC_toLowerL (sep : Char) (hsep : isAlphaA sep = false)
    (t : List Char) : splitOnC sep (toLowerL t) = (splitOnC sep t).map toLowerL := by
  induction t with
  | nil => rfl
  | cons c cs ih =>
      have hL : splitOnC sep (toLowerL (c :: cs)) =
          (if lowerC c = sep then [] :: splitOnC sep (toLowerL cs)
           else
             match splitOnC sep (toLowerL cs) with
             | [] => [[lowerC c]]
             | l :: ls => (lowerC c :: l) :: ls) := rfl
      have hR : splitOnC sep (c :: cs) =
          (if c = sep then [] :: splitOnC sep cs
           else
             match splitOnC sep cs with
             | [] => [[c]]
             | l :: ls => (c :: l) :: ls) := rfl
      rw [hL, hR, ih]
      by_cases h : c = sep
      · rw [if_pos ((lowerC_eq_nonletter_iff c sep hsep).mpr h), if_pos h]
        rfl
      · rw [if_neg (fun hc => h ((lowerC_eq_nonletter_iff c sep hsep).mp hc)),
          if_neg h]
        cases hs : splitOnC sep cs with
        | nil => rfl
        | cons l ls => rfl

theorem joinNL_toLowerL (ls : List (List Char)) :
    joinNL (ls.map toLowerL) = toLowerL (joinNL ls) := by
  induction ls with
  | nil => rfl
  | cons l ls ih =>
      cases ls with
      | nil => rfl
      | cons l2 ls2 =>
          show toLowerL l ++ '\n' :: joinNL (toLowerL l2 :: ls2.map toLowerL) =
            toLowerL (l ++ '\n' :: joinNL (l2 :: ls2))
          rw [show (toLowerL l2 :: List.map toLowerL ls2) =
            List.map toLowerL (l2 :: ls2) from rfl, ih, toLowerL_append]
          rfl

theorem ciPrefixRest_toLowerL (p : List Char) :
    ∀ t : List Char,
      ciPrefixRest p (toLowerL t) = (ciPrefixRest p t).map toLowerL := by
  induction p with
  | nil => intro t; rfl
  | cons a ps ih =>
      intro t
      cases t with
      | nil => rfl
      | cons c cs =>
          show (if lowerC (lowerC c) = a then ciPrefixRest ps (toLowerL cs)
            else none) =
            Option.map toLowerL
              (if lowerC c = a then ciPrefixRest ps cs else none)
          rw [lowerC_idem]
          by_cases h : lowerC c = a
          · rw [if_pos h, if_pos h, ih cs]
          · rw [if_neg h, if_neg h]
            rfl

theorem wordAt_toLowerL (w t : List Char) :
    wordAt w (toLowerL t) = wordAt w t := by
  unfold wordAt
  rw [ciPrefixRest_toLowerL]
  cases h : ciPrefixRest w t with
  | none => rfl
  | some r =>
      cases r with
      | nil => rfl
      | cons c rest =>
          show (!isWordC (lowerC c)) = (!isWordC c)
          rw [isWordC_lowerC]

theorem eatLitWs_toLowerL (lit t : List Char) :
    eatLitWs lit (toLowerL t) = (eatLitWs lit t).map toLowerL := by
  unfold eatLitWs
  rw [ciPrefixRest_toLowerL]
  cases h : ciPrefixRest lit t with
  | none => rfl
  | some r =>
      cases r with
      | nil => rfl
      | cons c rest =>
          show (if isSpaceC (lowerC c) = true
            then some (List.dropWhile isSpaceC (lowerC c :: toLowerL rest))
            else none) =
            Option.map toLowerL
              (if isSpaceC c = true
               then some (List.dropWhile isSpaceC (c :: rest)) else none)
          rw [isSpaceC_lowerC]
          by_cases hs : isSpaceC c = true
          · rw [if_pos hs, if_pos hs, Option.map_some',
              show (lowerC c :: toLowerL rest) = toLowerL (c :: rest) from rfl,
              dropWhile_toLowerL isSpaceC isSpaceC_lowerC]
          · rw [if_neg hs, if_neg hs]
            rfl

theorem eatIdent_toLowerL (t : List Char) :
    eatIdent (toLowerL t) =
      (eatIdent t).map (fun p => (toLowerL p.1, toLowerL p.2)) := by
  cases t with
  | nil => rfl
  | cons c cs =>
      show (if isAlphaA (lowerC c) = true
        then some (lowerC c :: (toLowerL cs).takeWhile isWordC,
          (toLowerL cs).dropWhile isWordC)
        else none) =
        Option.map (fun p => (toLowerL p.1, toLowerL p.2))
          (if isAlphaA c = true
           then some (c :: cs.takeWhile isWordC, cs.dropWhile isWordC)
           else none)
      rw [isAlphaA_lowerC]
      by_cases h : isAlphaA c = true
      · rw [if_pos h, if_pos h, Option.map_some',
          takeWhile_toLowerL isWordC isWordC_lowerC,
          dropWhile_toLowerL isWordC isWordC_lowerC]
        rfl
      · rw [if_neg h, if_neg h]
        rfl

theorem eatIdentFst_toLowerL (t : List Char) :
    (eatIdent (toLowerL t)).map Prod.fst =
      ((eatIdent t).map Prod.fst).map toLowerL := by
  rw [eatIdent_toLowerL]
  cases eatIdent t <;> rfl

theorem isIdentFull_toLowerL (t : List Char) :
    isIdentFull (toLowerL t) = isIdentFull t := by
  cases t with
  | nil => rfl
  | cons c cs =>
      show (isAlphaA (lowerC c) && (toLowerL cs).all isWordC) =
        (isAlphaA c && cs.all isWordC)
      rw [isAlphaA_lowerC]
      congr 1
      simp only [toLowerL, List.all_map]
      have hf : (isWordC ∘ lowerC) = isWordC := funext isWordC_lowerC
      rw [hf]

theorem containsWordCI_toLowerL (w : List Char) :
    ∀ (b : Bool) (t : List Char),
      containsWordCI w b (toLowerL t) = containsWordCI w b t := by
  intro b t
  induction t generalizing b with
  | nil => rfl
  | cons c cs ih =>
      show (!b && wordAt w (lowerC c :: toLowerL cs) ||
        containsWordCI w (isWordC (lowerC c)) (toLowerL cs)) =
        (!b && wordAt w (c :: cs) || containsWordCI w (isWordC c) cs)
      rw [show (lowerC c :: toLowerL cs) = toLowerL (c :: cs) from rfl,
        wordAt_toLowerL, isWordC_lowerC, ih]

theorem orElse_map_toLowerL (a b : Option (List Char)) :
    (a.map toLowerL <|> b.map toLowerL) = (a <|> b).map toLowerL := by
  cases a <;> rfl

theorem colonModes_toLowerL (ds : List Char) :
    colonModes (toLowerL ds) = (colonModes ds).map toLowerL := by
  unfold colonModes
  rw [eatLitWs_toLowerL (sL "in") ds, eatLitWs_toLowerL (sL "out") ds,
    eatIdentFst_toLowerL ds]
  cases h1 : eatLitWs (sL "in") ds with
  | none =>
      simp only [Option.map_none', Option.bind_eq_bind, Option.none_bind,
        Option.none_orElse]
      cases h3 : eatLitWs (sL "out") ds with
      | none =>
          simp only [Option.map_none', Option.none_bind, Option.none_orElse]
      | some r1 =>
          simp only [Option.map_some', Option.some_bind]
          rw [eatIdentFst_toLowerL r1]
          simp only [orElse_map_toLowerL]
  | some r1 =>
      simp only [Option.map_some', Option.bind_eq_bind, Option.some_bind]
      rw [eatLitWs_toLowerL (sL "out") r1, eatIdentFst_toLowerL r1]
      cases h2 : eatLitWs (sL "out") r1 with
      | none =>
          simp only [Option.map_none', Option.none_bind, Option.none_orElse]
          cases h3 : eatLitWs (sL "out") ds with
          | none =>
              simp only [Option.map_none', Option.none_bind, Option.none_orElse]
              simp only [orElse_map_toLowerL]
          | some r3 =>
              simp only [Option.map_some', Option.some_bind]
              rw [eatIdentFst_toLowerL r3]
              simp only [orElse_map_toLowerL]
      | some r2 =>
          simp only [Option.map_some', Option.some_bind]
          rw [eatIdentFst_toLowerL r2]
          cases h3 : eatLitWs (sL "out") ds with
          | none =>
              simp only [Option.map_none', Option.none_bind, Option.none_orElse]
              simp only [orElse_map_toLowerL]
          | some r3 =>
              simp only [Option.map_some', Option.some_bind]
              rw [eatIdentFst_toLowerL r3]
              simp only [orElse_map_toLowerL]

theorem afterColonType_toLowerL (cs0 : List Char) :
    afterColonType (toLowerL cs0) = (afterColonType cs0).map toLowerL := by
  unfold afterColonType
  rw [dropWhile_toLowerL isSpaceC isSpaceC_lowerC,
    eatLitWs_toLowerL (sL "constant"), colonModes_toLowerL]
  cases hc : eatLitWs (sL "constant") (cs0.dropWhile isSpaceC) with
  | none => rfl
  | some r =>
      simp only [Option.map_some']
      rw [colonModes_toLowerL r]
      cases hm : colonModes r with
      | none => rfl
      | some idv => rfl

theorem searchColonType_toLowerL (t : List Char) :
    searchColonType (toLowerL t) = (searchColonType t).map toLowerL := by
  induction t with
  | nil => rfl
  | cons c cs ih =>
      show (if lowerC c = ':' then
          match afterColonType (toLowerL cs) with
          | some id => some id
          | none => searchColonType (toLowerL cs)
        else searchColonType (toLowerL cs)) =
        Option.map toLowerL
          (if c = ':' then
            match afterColonType cs with
            | some id => some id
            | none => searchColonType cs
          else searchColonType cs)
      by_cases h : c = ':'
      · rw [if_pos ((lowerC_eq_nonletter_iff c ':' (by decide)).mpr h), if_pos h,
          afterColonType_toLowerL]
        cases ha : afterColonType cs with
        | none =>
            simp only [Option.map_none']
            exact ih
        | some idv => rfl
      · rw [if_neg (fun hc => h ((lowerC_eq_nonletter_iff c ':' (by decide)).mp hc)),
          if_neg h]
        exact ih

theorem kwIdentHere_toLowerL (kw t : List Char) :
    kwIdentHere kw (toLowerL t) = (kwIdentHere kw t).map toLowerL := by
  unfold kwIdentHere
  rw [ciPrefixRest_toLowerL]
  cases h : ciPrefixRest kw t with
  | none => rfl
  | some r =>
      cases r with
      | nil => rfl
      | cons d rest =>
          show (if isSpaceC (lowerC d) = true
            then (eatIdent (List.dropWhile isSpaceC
              (lowerC d :: toLowerL rest))).map Prod.fst
            else none) =
            Option.map toLowerL
              (if isSpaceC d = true
               then (eatIdent (List.dropWhile isSpaceC (d :: rest))).map Prod.fst
               else none)
          rw [isSpaceC_lowerC]
          by_cases hs : isSpaceC d = true
          · rw [if_pos hs, if_pos hs,
              show (lowerC d :: toLowerL rest) = toLowerL (d :: rest) from rfl,
              dropWhile_toLowerL isSpaceC isSpaceC_lowerC,
              eatIdentFst_toLowerL]
          · rw [if_neg hs, if_neg hs]
            rfl

theorem searchKwIdent_toLowerL (kw : List Char) :
    ∀ (b : Bool) (t : List Char),
      searchKwIdent kw b (toLowerL t) = (searchKwIdent kw b t).map toLowerL := by
  intro b t
  induction t generalizing b with
  | nil => rfl
  | cons c cs ih =>
      show (match (if b then none
          else kwIdentHere kw (lowerC c :: toLowerL cs)) with
        | some id => some id
        | none => searchKwIdent kw (isWordC (lowerC c)) (toLowerL cs)) =
        Option.map toLowerL
          (match (if b then none else kwIdentHere kw (c :: cs)) with
           | some id => some id
           | none => searchKwIdent kw (isWordC c) cs)
      rw [isWordC_lowerC]
      cases b with
      | true => exact ih (isWordC c)
      | false =>
          show (match kwIdentHere kw (lowerC c :: toLowerL cs) with
            | some id => some id
            | none => searchKwIdent kw (isWordC c) (toLowerL cs)) =
            Option.map toLowerL
              (match kwIdentHere kw (c :: cs) with
               | some id => some id
               | none => searchKwIdent kw (isWordC c) cs)
          rw [show (lowerC c :: toLowerL cs) = toLowerL (c :: cs) from rfl,
            kwIdentHere_toLowerL]
          cases hk : kwIdentHere kw (c :: cs) with
          | none =>
              simp only [Option.map_none']
              exact ih (isWordC c)
          | some idv => rfl

theorem collect_type_names_toLowerL (line : List Char) :
    collect_type_names (toLowerL line) = collect_type_names line := by
  simp only [collect_type_names]
  rw [strip_comment_toLowerL, searchColonType_toLowerL,
    containsWordCI_toLowerL, searchKwIdent_toLowerL (sL "of"),
    searchKwIdent_toLowerL (sL "return")]
  have hm1 : (match Option.map toLowerL (searchColonType (strip_comment line)) with
      | some t => dset [] (toLowerL t) (toUpperL t)
      | none => ([] : Dict)) =
      (match searchColonType (strip_comment line) with
      | some t => dset [] (toLowerL t) (toUpperL t)
      | none => ([] : Dict)) := by
    cases searchColonType (strip_comment line) with
    | none => rfl
    | some t =>
        simp only [Option.map_some']
        rw [toLowerL_idem, toUpperL_toLowerL]
  rw [hm1]
  have hm2 : ∀ m1 : Dict,
      (if containsWordCI (sL "array") false (strip_comment line) = true then
        match Option.map toLowerL (searchKwIdent (sL "of") false (strip_comment line)) with
        | some t => dset m1 (toLowerL t) (toUpperL t)
        | none => m1
      else m1) =
      (if containsWordCI (sL "array") false (strip_comment line) = true then
        match searchKwIdent (sL "of") false (strip_comment line) with
        | some t => dset m1 (toLowerL t) (toUpperL t)
        | none => m1
      else m1) := by
    intro m1
    by_cases h : containsWordCI (sL "array") false (strip_comment line) = true
    · rw [if_pos h, if_pos h]
      cases searchKwIdent (sL "of") false (strip_comment line) with
      | none => rfl
      | some t =>
          simp only [Option.map_some']
          rw [toLowerL_idem, toUpperL_toLowerL]
    · rw [if_neg h, if_neg h]
  rw [hm2]
  cases searchKwIdent (sL "return") false (strip_comment line) with
  | none => rfl
  | some t =>
      simp only [Option.map_some']
      rw [toLowerL_idem, toUpperL_toLowerL]

theorem matchTypeDecl_toLowerL (code : List Char) :
    matchTypeDecl (toLowerL code) = (matchTypeDecl code).map toLowerL := by
  simp only [matchTypeDecl]
  rw [dropWhile_toLowerL isSpaceC isSpaceC_lowerC,
    eatLitWs_toLowerL (sL "type"), eatLitWs_toLowerL (sL "subtype")]
  cases h1 : eatLitWs (sL "type") (code.dropWhile isSpaceC) with
  | some r =>
      simp only [Option.map_some']
      exact eatIdentFst_toLowerL r
  | none =>
      simp only [Option.map_none']
      cases h2 : eatLitWs (sL "subtype") (code.dropWhile isSpaceC) with
      | some r =>
          simp only [Option.map_some']
          exact eatIdentFst_toLowerL r
      | none => rfl

theorem matchObjDecl_toLowerL (code : List Char) :
    matchObjDecl (toLowerL code) =
      (matchObjDecl code).map (fun p => (toLowerL p.1, toLowerL p.2)) := by
  unfold matchObjDecl
  rw [dropWhile_toLowerL isObjClassC isObjClassC_lowerC,
    takeWhile_toLowerL isObjClassC isObjClassC_lowerC]
  cases h : code.dropWhile isObjClassC with
  | nil => rfl
  | cons c rest =>
      show (if lowerC c = ':' then
          if (toLowerL (code.takeWhile isObjClassC)).isEmpty = true then none
          else some (toLowerL (code.takeWhile isObjClassC), toLowerL rest)
        else none) =
        Option.map (fun p => (toLowerL p.1, toLowerL p.2))
          (if c = ':' then
            if (code.takeWhile isObjClassC).isEmpty = true then none
            else some (code.takeWhile isObjClassC, rest)
          else none)
      rw [isEmpty_toLowerL]
      by_cases h1 : c = ':'
      · rw [if_pos ((lowerC_eq_nonletter_iff c ':' (by decide)).mpr h1), if_pos h1]
        by_cases h2 : (code.takeWhile isObjClassC).isEmpty = true
        · rw [if_pos h2, if_pos h2]
          rfl
        · rw [if_neg h2, if_neg h2]
          rfl
      · rw [if_neg (fun hc => h1 ((lowerC_eq_nonletter_iff c ':' (by decide)).mp hc)),
          if_neg h1]
        rfl

theorem objDeclValue_toLowerL (isConst mvu : Bool) (n : List Char) :
    objDeclValue isConst mvu (toLowerL n) = objDeclValue isConst mvu n := by
  unfold objDeclValue
  rw [toUpperL_toLowerL, toLowerL_idem]

theorem objIdsFold_toLowerL (isConst mvu : Bool) :
    ∀ (parts : List (List Char)) (ids : Dict),
      objIdsFold isConst mvu ids (parts.map toLowerL) =
        objIdsFold isConst mvu ids parts := by
  intro parts
  induction parts with
  | nil => intro ids; rfl
  | cons p ps ih =>
      intro ids
      show objIdsFold isConst mvu
          (if (stripB (toLowerL p)).isEmpty = true then ids
           else if !isIdentFull (stripB (toLowerL p)) then ids
           else dset ids (toLowerL (stripB (toLowerL p)))
             (objDeclValue isConst mvu (stripB (toLowerL p))))
          (ps.map toLowerL) =
        objIdsFold isConst mvu
          (if (stripB p).isEmpty = true then ids
           else if !isIdentFull (stripB p) then ids
           else dset ids (toLowerL (stripB p))
             (objDeclValue isConst mvu (stripB p)))
          ps
      rw [stripB_toLowerL, isEmpty_toLowerL, isIdentFull_toLowerL,
        toLowerL_idem, objDeclValue_toLowerL, ih]

theorem declStep_toLowerL (mvu : Bool) (st : Dict × Dict) (raw : List Char) :
    declStep mvu st (toLowerL raw) = declStep mvu st raw := by
  unfold declStep
  rw [strip_comment_toLowerL, stripRgt_toLowerL, stripB_toLowerL,
    isEmpty_toLowerL, matchTypeDecl_toLowerL, collect_type_names_toLowerL,
    matchObjDecl_toLowerL]
  by_cases h0 : (stripB (stripRgt (strip_comment raw))).isEmpty = true
  · rw [if_pos h0, if_pos h0]
  · rw [if_neg h0, if_neg h0]
    cases h1 : matchTypeDecl (stripRgt (strip_comment raw)) with
    | some name =>
        simp only [Option.map_some']
        rw [toLowerL_idem, toUpperL_toLowerL]
    | none =>
        simp only [Option.map_none']
        cases h2 : matchObjDecl (stripRgt (strip_comment raw)) with
        | none => rfl
        | some pr =>
            obtain ⟨idPart, rest⟩ := pr
            simp only [Option.map_some']
            rw [containsWordCI_toLowerL,
              splitOnC_toLowerL ',' (by decide) idPart, objIdsFold_toLowerL]

theorem foldl_declStep_toLowerL (mvu : Bool) :
    ∀ (lines : List (List Char)) (st : Dict × Dict),
      List.foldl (declStep mvu) st (lines.map toLowerL) =
        List.foldl (declStep mvu) st lines := by
  intro lines
  induction lines with
  | nil => intro st; rfl
  | cons l ls ih =>
      intro st
      show List.foldl (declStep mvu) (declStep mvu st (toLowerL l))
          (ls.map toLowerL) = _
      rw [declStep_toLowerL, ih]
      rfl

theorem collect_declarations_toLowerL (lines : List (List Char)) (mvu : Bool) :
    collect_declarations (lines.map toLowerL) mvu =
      collect_declarations lines mvu :=
  foldl_declStep_toLowerL mvu lines ([], [])

theorem collect_package_mapping_toLowerL (text : List Char) :
    collect_package_mapping (toLowerL text) = collect_package_mapping text := by
  simp only [collect_package_mapping]
  rw [splitLines_toLowerL, collect_declarations_toLowerL]

theorem isPackageUnitGo_toLowerL :
    ∀ ls : List (List Char),
      isPackageUnitGo (ls.map toLowerL) = isPackageUnitGo ls := by
  intro ls
  induction ls with
  | nil => rfl
  | cons l ls ih =>
      show isPackageUnitGo (toLowerL l :: ls.map toLowerL) = _
      simp only [isPackageUnitGo]
      rw [strip_comment_toLowerL, stripB_toLowerL, toLowerL_idem, ih]

theorem is_package_unit_toLowerL (text : List Char) :
    is_package_unit (toLowerL text) = is_package_unit text := by
  unfold is_package_unit
  rw [splitLines_toLowerL, isPackageUnitGo_toLowerL]

theorem drop_toLowerL (t : List Char) (n : Nat) :
    (toLowerL t).drop n = toLowerL (t.drop n) :=
  (List.map_drop lowerC t n).symm

theorem take_toLowerL (t : List Char) (n : Nat) :
    (toLowerL t).take n = toLowerL (t.take n) :=
  (List.map_take lowerC t n).symm

theorem searchPF_toLowerL :
    ∀ (t : List Char) (b : Bool) (i : Nat),
      searchPF b i (toLowerL t) = searchPF b i t := by
  intro t
  induction t with
  | nil => intro b i; rfl
  | cons c cs ih =>
      intro b i
      show (if (!b && wordAt (sL "procedure") (lowerC c :: toLowerL cs)) = true
        then some (sL "procedure", i)
        else if (!b && wordAt (sL "function") (lowerC c :: toLowerL cs)) = true
          then some (sL "function", i)
          else searchPF (isWordC (lowerC c)) (i + 1) (toLowerL cs)) =
        (if (!b && wordAt (sL "procedure") (c :: cs)) = true
        then some (sL "procedure", i)
        else if (!b && wordAt (sL "function") (c :: cs)) = true
          then some (sL "function", i)
          else searchPF (isWordC c) (i + 1) cs)
      rw [show (lowerC c :: toLowerL cs) = toLowerL (c :: cs) from rfl,
        wordAt_toLowerL, wordAt_toLowerL, isWordC_lowerC, ih]

theorem ffsGo_toLowerL :
    ∀ (ls : List (List Char)) (off : Nat),
      ffsGo (ls.map toLowerL) off = ffsGo ls off := by
  intro ls
  induction ls with
  | nil => intro off; rfl
  | cons l ls ih =>
      intro off
      simp only [List.map_cons, ffsGo]
      rw [strip_comment_toLowerL, searchPF_toLowerL, toLowerL_length, ih]

theorem find_first_subprogram_toLowerL (text : List Char) :
    find_first_subprogram (toLowerL text) = find_first_subprogram text := by
  unfold find_first_subprogram
  rw [splitLinesKeep_toLowerL, ffsGo_toLowerL]

theorem searchWord_toLowerL (kw : List Char) :
    ∀ (t : List Char) (b : Bool) (i : Nat),
      searchWord kw b i (toLowerL t) = searchWord kw b i t := by
  intro t
  induction t with
  | nil => intro b i; rfl
  | cons c cs ih =>
      intro b i
      show (if (!b && wordAt kw (lowerC c :: toLowerL cs)) = true then some i
        else searchWord kw (isWordC (lowerC c)) (i + 1) (toLowerL cs)) =
        (if (!b && wordAt kw (c :: cs)) = true then some i
        else searchWord kw (isWordC c) (i + 1) cs)
      rw [show (lowerC c :: toLowerL cs) = toLowerL (c :: cs) from rfl,
        wordAt_toLowerL, isWordC_lowerC, ih]

theorem find_keyword_after_toLowerL (text kw : List Char) (start : Nat) :
    find_keyword_after (toLowerL text) kw start =
      find_keyword_after text kw start := by
  unfold find_keyword_after
  rw [drop_toLowerL, searchWord_toLowerL]

theorem neC_toLowerL (ch : Char) (h : isAlphaA ch = false) (c : Char) :
    (lowerC c != ch) = (c != ch) := by
  by_cases he : c = ch
  · rw [he, show lowerC ch = ch from (lowerC_eq_nonletter_iff ch ch h).mpr rfl]
  · have h2 : lowerC c ≠ ch := fun hc =>
      he ((lowerC_eq_nonletter_iff c ch h).mp hc)
    rw [show (lowerC c != ch) = true from bne_iff_ne.mpr h2,
      show (c != ch) = true from bne_iff_ne.mpr he]

theorem parenContent_toLowerL (header : List Char) :
    parenContent (toLowerL header) = (parenContent header).map toLowerL := by
  unfold parenContent
  rw [dropWhile_toLowerL (fun c => c != '(') (neC_toLowerL '(' (by decide))]
  cases h1 : header.dropWhile (fun c => c != '(') with
  | nil => rfl
  | cons c after =>
      show (match (toLowerL after).reverse.dropWhile (fun c => c != ')') with
        | [] => none
        | _ :: revContent => some revContent.reverse) =
        Option.map toLowerL
          (match after.reverse.dropWhile (fun c => c != ')') with
           | [] => none
           | _ :: revContent => some revContent.reverse)
      rw [reverse_toLowerL,
        dropWhile_toLowerL (fun c => c != ')') (neC_toLowerL ')' (by decide))]
      cases h2 : after.reverse.dropWhile (fun c => c != ')') with
      | nil => rfl
      | cons d revContent =>
          show some ((toLowerL revContent).reverse) =
            some (toLowerL revContent.reverse)
          rw [reverse_toLowerL]

theorem paramIdsFold_toLowerL :
    ∀ (parts : List (List Char)) (m : Dict),
      paramIdsFold m (parts.map toLowerL) = paramIdsFold m parts := by
  intro parts
  induction parts with
  | nil => intro m; rfl
  | cons p ps ih =>
      intro m
      show paramIdsFold
          (if (stripB (toLowerL p)).isEmpty = true then m
           else if !isIdentFull (stripB (toLowerL p)) then m
           else dset m (toLowerL (stripB (toLowerL p)))
             (toLowerL (stripB (toLowerL p))))
          (ps.map toLowerL) =
        paramIdsFold
          (if (stripB p).isEmpty = true then m
           else if !isIdentFull (stripB p) then m
           else dset m (toLowerL (stripB p)) (toLowerL (stripB p)))
          ps
      rw [stripB_toLowerL, isEmpty_toLowerL, isIdentFull_toLowerL,
        toLowerL_idem, ih]

theorem paramStep_toLowerL (m : Dict) (group : List Char) :
    paramStep m (toLowerL group) = paramStep m group := by
  unfold paramStep
  rw [strip_comment_toLowerL, matchObjDecl_toLowerL,
    collect_type_names_toLowerL]
  cases h : matchObjDecl (strip_comment group) with
  | none => rfl
  | some pr =>
      obtain ⟨idPart, rest⟩ := pr
      simp only [Option.map_some']
      rw [splitOnC_toLowerL ',' (by decide) idPart, paramIdsFold_toLowerL]

theorem stageParams_toLowerL (m : Dict) (header : List Char) :
    stageParams m (toLowerL header) = stageParams m header := by
  unfold stageParams
  rw [parenContent_toLowerL]
  cases h : parenContent header with
  | none => rfl
  | some params =>
      simp only [Option.map_some']
      rw [splitOnC_toLowerL ';' (by decide) params]
      have hfold : ∀ (gs : List (List Char)) (m0 : Dict),
          List.foldl paramStep m0 (gs.map toLowerL) =
            List.foldl paramStep m0 gs := by
        intro gs
        induction gs with
        | nil => intro m0; rfl
        | cons g gs2 ih =>
            intro m0
            show List.foldl paramStep (paramStep m0 (toLowerL g))
              (gs2.map toLowerL) = _
            rw [paramStep_toLowerL, ih]
            rfl
      exact hfold (splitOnC ';' params) m

theorem stageReturn_toLowerL (m : Dict) (header : List Char) :
    stageReturn m (toLowerL header) = stageReturn m header := by
  unfold stageReturn
  rw [searchKwIdent_toLowerL]
  cases h : searchKwIdent (sL "return") false header with
  | none => rfl
  | some rt =>
      simp only [Option.map_some']
      rw [toLowerL_idem, toUpperL_toLowerL]

theorem stageLocals_toLowerL (m : Dict) (dls : List (List Char)) :
    stageLocals m (dls.map toLowerL) = stageLocals m dls := by
  simp only [stageLocals]
  rw [collect_declarations_toLowerL]

theorem matchForIn_toLowerL (cs : List Char) :
    matchForIn (toLowerL cs) =
      (matchForIn cs).map (fun p => (toLowerL p.1, toLowerL p.2)) := by
  unfold matchForIn
  rw [eatLitWs_toLowerL]
  cases h1 : eatLitWs (sL "for") cs with
  | none => rfl
  | some r1 =>
      simp only [Option.map_some']
      rw [eatIdent_toLowerL]
      cases h2 : eatIdent r1 with
      | none => rfl
      | some vr =>
          obtain ⟨v, r2⟩ := vr
          simp only [Option.map_some']
          cases r2 with
          | nil => rfl
          | cons c r2' =>
              show (if isSpaceC (lowerC c) = true then
                  match ciPrefixRest (sL "in")
                    (List.dropWhile isSpaceC (lowerC c :: toLowerL r2')) with
                  | some [] => some (toLowerL v, [])
                  | some (d :: rest) =>
                      if isWordC d = true then none
                      else some (toLowerL v, d :: rest)
                  | none => none
                else none) =
                Option.map (fun p => (toLowerL p.1, toLowerL p.2))
                  (if isSpaceC c = true then
                    match ciPrefixRest (sL "in")
                      (List.dropWhile isSpaceC (c :: r2')) with
                    | some [] => some (v, [])
                    | some (d :: rest) =>
                        if isWordC d = true then none
                        else some (v, d :: rest)
                    | none => none
                  else none)
              rw [isSpaceC_lowerC]
              by_cases hs : isSpaceC c = true
              · rw [if_pos hs, if_pos hs,
                  show (lowerC c :: toLowerL r2') = toLowerL (c :: r2') from rfl,
                  dropWhile_toLowerL isSpaceC isSpaceC_lowerC,
                  ciPrefixRest_toLowerL]
                cases h3 : ciPrefixRest (sL "in")
                    (List.dropWhile isSpaceC (c :: r2')) with
                | none => rfl
                | some rr =>
                    cases rr with
                    | nil => rfl
                    | cons d rest =>
                        show (if isWordC (lowerC d) = true then none
                          else some (toLowerL v, lowerC d :: toLowerL rest)) =
                          Option.map (fun p => (toLowerL p.1, toLowerL p.2))
                            (if isWordC d = true then none
                             else some (v, d :: rest))
                        rw [isWordC_lowerC]
                        by_cases hw : isWordC d = true
                        · rw [if_pos hw, if_pos hw]
                          rfl
                        · rw [if_neg hw, if_neg hw]
                          rfl
              · rw [if_neg hs, if_neg hs]
                rfl

theorem findLoopVarsF_toLowerL :
    ∀ (fuel : Nat) (b : Bool) (t : List Char),
      findLoopVarsF fuel b (toLowerL t) =
        (findLoopVarsF fuel b t).map toLowerL := by
  intro fuel
  induction fuel with
  | zero => intro b t; rfl
  | succ f ih =>
      intro b t
      cases t with
      | nil => rfl
      | cons c cs =>
          rw [show toLowerL (c :: cs) = lowerC c :: toLowerL cs from rfl]
          simp only [findLoopVarsF]
          rw [isWordC_lowerC,
            show (lowerC c :: toLowerL cs) = toLowerL (c :: cs) from rfl,
            matchForIn_toLowerL]
          by_cases hb : b = true
          · rw [if_pos hb, if_pos hb]
            exact ih (isWordC c) cs
          · rw [if_neg hb, if_neg hb]
            cases hm : matchForIn (c :: cs) with
            | none =>
                simp only [Option.map_none']
                exact ih (isWordC c) cs
            | some vr =>
                obtain ⟨v, rest⟩ := vr
                simp only [Option.map_some', List.map_cons]
                show toLowerL v :: findLoopVarsF f true (toLowerL rest) =
                  toLowerL v :: List.map toLowerL (findLoopVarsF f true rest)
                rw [ih true rest]

theorem findLoopVars_toLowerL (t : List Char) :
    findLoopVars (toLowerL t) = (findLoopVars t).map toLowerL := by
  unfold findLoopVars
  rw [toLowerL_length]
  exact findLoopVarsF_toLowerL t.length false t

theorem loopStep_toLowerL (m : Dict) (v : List Char) :
    loopStep m (toLowerL v) = loopStep m v := by
  unfold loopStep
  rw [toLowerL_idem]

theorem stageLoops_toLowerL (m : Dict) (nct : List Char) :
    stageLoops m (toLowerL nct) = stageLoops m nct := by
  unfold stageLoops
  rw [findLoopVars_toLowerL]
  have hfold : ∀ (vs : List (List Char)) (m0 : Dict),
      List.foldl loopStep m0 (vs.map toLowerL) = List.foldl loopStep m0 vs := by
    intro vs
    induction vs with
    | nil => intro m0; rfl
    | cons v vs2 ih =>
        intro m0
        show List.foldl loopStep (loopStep m0 (toLowerL v)) (vs2.map toLowerL) = _
        rw [loopStep_toLowerL, ih]
        rfl
  exact hfold (findLoopVars nct) m

theorem assignTarget_toLowerL (code : List Char) :
    assignTarget (toLowerL code) = (assignTarget code).map toLowerL := by
  unfold assignTarget
  rw [dropWhile_toLowerL isSpaceC isSpaceC_lowerC, eatIdent_toLowerL]
  cases h1 : eatIdent (code.dropWhile isSpaceC) with
  | none => rfl
  | some nr =>
      obtain ⟨name, rest⟩ := nr
      simp only [Option.map_some']
      show (match (toLowerL rest).dropWhile isSpaceC with
        | c1 :: c2 :: _ =>
            if c1 = ':' ∧ c2 = '=' then some (toLowerL name) else none
        | _ => none) =
        Option.map toLowerL
          (match rest.dropWhile isSpaceC with
           | c1 :: c2 :: _ =>
               if c1 = ':' ∧ c2 = '=' then some name else none
           | _ => none)
      rw [dropWhile_toLowerL isSpaceC isSpaceC_lowerC]
      cases h2 : rest.dropWhile isSpaceC with
      | nil => rfl
      | cons c1 tl =>
          cases tl with
          | nil => rfl
          | cons c2 tl2 =>
              show (if lowerC c1 = ':' ∧ lowerC c2 = '=' then
                  some (toLowerL name) else none) =
                Option.map toLowerL
                  (if c1 = ':' ∧ c2 = '=' then some name else none)
              by_cases hc : c1 = ':' ∧ c2 = '='
              · rw [if_pos ⟨(lowerC_eq_nonletter_iff c1 ':' (by decide)).mpr hc.1,
                  (lowerC_eq_nonletter_iff c2 '=' (by decide)).mpr hc.2⟩,
                  if_pos hc]
                rfl
              · rw [if_neg (fun hl => hc
                    ⟨(lowerC_eq_nonletter_iff c1 ':' (by decide)).mp hl.1,
                     (lowerC_eq_nonletter_iff c2 '=' (by decide)).mp hl.2⟩),
                  if_neg hc]
                rfl

theorem extStep_toLowerL (m : Dict) (raw : List Char) :
    extStep m (toLowerL raw) = extStep m raw := by
  unfold extStep
  rw [strip_comment_toLowerL, assignTarget_toLowerL]
  cases h : assignTarget (strip_comment raw) with
  | none => rfl
  | some name =>
      simp only [Option.map_some']
      rw [toLowerL_idem, toUpperL_toLowerL]

theorem stageExternal_toLowerL (m : Dict) (text : List Char) :
    stageExternal m (toLowerL text) = stageExternal m text := by
  unfold stageExternal
  rw [splitLines_toLowerL]
  have hfold : ∀ (ls : List (List Char)) (m0 : Dict),
      List.foldl extStep m0 (ls.map toLowerL) = List.foldl extStep m0 ls := by
    intro ls
    induction ls with
    | nil => intro m0; rfl
    | cons l ls2 ih =>
        intro m0
        show List.foldl extStep (extStep m0 (toLowerL l)) (ls2.map toLowerL) = _
        rw [extStep_toLowerL, ih]
        rfl
  exact hfold (splitLines text) m

theorem ncText_toLowerL (text : List Char) :
    ncText (toLowerL text) = toLowerL (ncText text) := by
  unfold ncText
  rw [splitLines_toLowerL, List.map_map,
    show (strip_comment ∘ toLowerL) = (toLowerL ∘ strip_comment) from
      funext strip_comment_toLowerL,
    ← List.map_map, joinNL_toLowerL]

theorem stageGlobals_toLowerL (text : List Char) (ps : Nat) :
    stageGlobals (toLowerL text) ps = stageGlobals text ps := by
  simp only [stageGlobals]
  rw [take_toLowerL, splitLines_toLowerL, collect_declarations_toLowerL]

theorem headerOf_toLowerL (text : List Char) (ps ip : Nat) :
    headerOf (toLowerL text) ps ip = toLowerL (headerOf text ps ip) := by
  unfold headerOf
  rw [take_toLowerL, drop_toLowerL]

theorem declLinesOf_toLowerL (text : List Char) (ip bp : Nat) :
    declLinesOf (toLowerL text) ip bp =
      (declLinesOf text ip bp).map toLowerL := by
  unfold declLinesOf
  rw [take_toLowerL, drop_toLowerL, splitLines_toLowerL]

theorem mapThroughReturn_toLowerL (text : List Char) (ps ip : Nat) :
    mapThroughReturn (toLowerL text) ps ip = mapThroughReturn text ps ip := by
  unfold mapThroughReturn
  rw [headerOf_toLowerL, stageGlobals_toLowerL, stageParams_toLowerL,
    stageReturn_toLowerL]

theorem mapThroughLocals_toLowerL (text : List Char) (ps ip bp : Nat) :
    mapThroughLocals (toLowerL text) ps ip bp =
      mapThroughLocals text ps ip bp := by
  unfold mapThroughLocals
  rw [mapThroughReturn_toLowerL, declLinesOf_toLowerL, stageLocals_toLowerL]

theorem mapThroughLoops_toLowerL (text : List Char) (ps ip bp : Nat) :
    mapThroughLoops (toLowerL text) ps ip bp =
      mapThroughLoops text ps ip bp := by
  unfold mapThroughLoops
  rw [mapThroughLocals_toLowerL, ncText_toLowerL, stageLoops_toLowerL]

theorem collect_subprogram_mapping_toLowerL (text : List Char) :
    collect_subprogram_mapping (toLowerL text) =
      collect_subprogram_mapping text := by
  cases h1 : find_first_subprogram text with
  | none =>
      simp only [collect_subprogram_mapping, find_first_subprogram_toLowerL, h1]
      exact collect_package_mapping_toLowerL text
  | some r =>
      obtain ⟨kw, ps⟩ := r
      cases h2 : find_keyword_after text (sL "is") ps with
      | none =>
          simp only [collect_subprogram_mapping, find_first_subprogram_toLowerL,
            h1, find_keyword_after_toLowerL, h2]
          exact stageGlobals_toLowerL text ps
      | some ip =>
          cases h3 : find_keyword_after text (sL "begin") ip with
          | none =>
              simp only [collect_subprogram_mapping,
                find_first_subprogram_toLowerL, h1,
                find_keyword_after_toLowerL, h2, h3]
              exact stageGlobals_toLowerL text ps
          | some bp =>
              simp only [collect_subprogram_mapping,
                find_first_subprogram_toLowerL, h1,
                find_keyword_after_toLowerL, h2, h3]
              rw [mapThroughLoops_toLowerL, stageExternal_toLowerL]

theorem toLowerL_flatten (L : List (List Char)) :
    toLowerL L.flatten = (L.map toLowerL).flatten := by
  simp only [toLowerL]
  exact List.map_flatten lowerC L

theorem allGood_entry_conditions {m : Dict} (hg : AllGood m) :
    ∀ p ∈ m, p.1 ≠ [] ∧ (∀ c ∈ p.1, isWordC c = true) ∧
      toLowerL p.2 = p.1 := by
  intro p hp
  obtain ⟨⟨hne, hall⟩, hkey, hval⟩ := hg p hp
  refine ⟨hne, ?_, ?_⟩
  · intro c hc
    exact (List.all_eq_true.mp hall) c hc
  · rcases hval with hv | hv
    · rw [hv, toLowerL_toUpperL, ← hkey]
    · rw [hv, ← hkey]

theorem toLowerL_apply_mapping (text : List Char) (m : Dict)
    (hnd : NoDupKeys m)
    (hm : ∀ p ∈ m, p.1 ≠ [] ∧ (∀ c ∈ p.1, isWordC c = true) ∧
      toLowerL p.2 = p.1) :
    toLowerL (apply_mapping text m) = toLowerL text := by
  rw [apply_mapping_eq text m hnd hm]
  conv_rhs => rw [← join_splitRuns text]
  rw [toLowerL_flatten, toLowerL_flatten, List.map_map]
  congr 1
  apply List.map_congr_left
  intro tok htok
  show toLowerL (match dlookup (toLowerL tok) m with
    | some v => v
    | none => tok) = toLowerL tok
  cases hd : dlookup (toLowerL tok) m with
  | none => rfl
  | some v =>
      have hmem := (dlookup_some_iff_mem hnd (toLowerL tok) v).mp hd
      exact (hm _ hmem).2.2

theorem classRun_lookup {m : Dict} (hnd : NoDupKeys m)
    (hm : ∀ p ∈ m, p.1 ≠ [] ∧ (∀ c ∈ p.1, isWordC c = true) ∧
      toLowerL p.2 = p.1)
    {b : Bool} {r : List Char} (hr : ClassRun b r) :
    ClassRun b
      (match dlookup (toLowerL r) m with
       | some v => v
       | none => r) := by
  cases hd : dlookup (toLowerL r) m with
  | none => exact hr
  | some v =>
      have hmem := (dlookup_some_iff_mem hnd (toLowerL r) v).mp hd
      obtain ⟨hk1, hk2, hk3⟩ := hm _ hmem
      obtain ⟨hne, hcls⟩ := hr
      have hb : b = true := by
        cases r with
        | nil => exact absurd rfl hne
        | cons c r' =>
            have h1 : isWordC c = b := hcls c (List.mem_cons_self c r')
            have h2 : lowerC c ∈ toLowerL (c :: r') :=
              List.mem_map_of_mem lowerC (List.mem_cons_self c r')
            have h3 : isWordC (lowerC c) = true := hk2 (lowerC c) h2
            rw [isWordC_lowerC] at h3
            rw [← h1, h3]
      subst hb
      show ClassRun true v
      constructor
      · intro hv
        rw [hv] at hk3
        exact hk1 hk3.symm
      · intro c hc
        have h2 : lowerC c ∈ toLowerL v := List.mem_map_of_mem lowerC hc
        rw [hk3] at h2
        have h3 := hk2 (lowerC c) h2
        rw [isWordC_lowerC] at h3
        exact h3

theorem splitRuns_apply_mapping (text : List Char) (m : Dict)
    (hnd : NoDupKeys m)
    (hm : ∀ p ∈ m, p.1 ≠ [] ∧ (∀ c ∈ p.1, isWordC c = true) ∧
      toLowerL p.2 = p.1) :
    splitRuns (apply_mapping text m) =
      (splitRuns text).map
        (fun tok =>
          match dlookup (toLowerL tok) m with
          | some v => v
          | none => tok) := by
  rw [apply_mapping_eq text m hnd hm]
  exact flatten_of_altRuns
    (altRuns_map (fun b r hr => classRun_lookup hnd hm hr)
      (altRuns_splitRuns text))

theorem apply_mapping_idem (text : List Char) (m : Dict)
    (hnd : NoDupKeys m)
    (hm : ∀ p ∈ m, p.1 ≠ [] ∧ (∀ c ∈ p.1, isWordC c = true) ∧
      toLowerL p.2 = p.1) :
    apply_mapping (apply_mapping text m) m = apply_mapping text m := by
  rw [apply_mapping_eq (apply_mapping text m) m hnd hm,
    splitRuns_apply_mapping text m hnd hm, List.map_map]
  conv_rhs => rw [apply_mapping_eq text m hnd hm]
  congr 1
  apply List.map_congr_left
  intro tok htok
  show (match dlookup
      (toLowerL (match dlookup (toLowerL tok) m with
        | some v => v
        | none => tok)) m with
    | some v => v
    | none =>
        match dlookup (toLowerL tok) m with
        | some v => v
        | none => tok) =
    (match dlookup (toLowerL tok) m with
     | some v => v
     | none => tok)
  cases hd : dlookup (toLowerL tok) m with
  | none =>
      simp only [hd]
  | some v =>
      have hmem := (dlookup_some_iff_mem hnd (toLowerL tok) v).mp hd
      have hv : toLowerL v = toLowerL tok := (hm _ hmem).2.2
      simp only [hd, hv]

/-- The mapping `process_file` selects for a file. -/
def fileMapping (text : List Char) : Dict :=
  if is_package_unit text then collect_package_mapping text
  else collect_subprogram_mapping text

theorem normalizeFile_eq (text : List Char) :
    normalizeFile text = apply_mapping text (fileMapping text) := rfl

theorem allGood_fileMapping (text : List Char) : AllGood (fileMapping text) := by
  unfold fileMapping
  by_cases h : is_package_unit text = true
  · rw [if_pos h]
    exact allGood_collect_package_mapping text
  · rw [if_neg h]
    exact allGood_collect_subprogram_mapping text

theorem ndk_fileMapping (text : List Char) : NoDupKeys (fileMapping text) := by
  unfold fileMapping
  by_cases h : is_package_unit text = true
  · rw [if_pos h]
    exact ndk_collect_package_mapping text
  · rw [if_neg h]
    exact ndk_collect_subprogram_mapping text

theorem fileMapping_toLowerL (text : List Char) :
    fileMapping (toLowerL text) = fileMapping text := by
  unfold fileMapping
  rw [is_package_unit_toLowerL, collect_package_mapping_toLowerL,
    collect_subprogram_mapping_toLowerL]

/-- C9: the per-file pipeline is idempotent.  Every scan the program performs
is case-insensitive and every stored spelling case-folds back to its key, so
the second run classifies the output identically, rebuilds the same mapping,
and rewrites every word run to the spelling it already has. -/
theorem C9_idempotence (text : List Char) :
    normalizeFile (normalizeFile text) = normalizeFile text := by
  have hm := allGood_entry_conditions (allGood_fileMapping text)
  have h1 : toLowerL (normalizeFile text) = toLowerL text := by
    rw [normalizeFile_eq]
    exact toLowerL_apply_mapping text (fileMapping text)
      (ndk_fileMapping text) hm
  have h2 : fileMapping (normalizeFile text) = fileMapping text := by
    calc fileMapping (normalizeFile text)
        = fileMapping (toLowerL (normalizeFile text)) :=
          (fileMapping_toLowerL (normalizeFile text)).symm
      _ = fileMapping (toLowerL text) := by rw [h1]
      _ = fileMapping text := fileMapping_toLowerL text
  show apply_mapping (normalizeFile text) (fileMapping (normalizeFile text)) =
    normalizeFile text
  rw [h2, normalizeFile_eq]
  exact apply_mapping_idem text (fileMapping text) (ndk_fileMapping text) hm
